import Mathlib

/-!
# Verification of the transactional overlayed-changes store

This development embeds `core/state-machine/src/overlayed_changes.rs` in Lean.
The per-key value histories and the shared nesting ledger live in the external
`historied_data::linear` crate (`States`, `History`, `HistoriedValue`,
`TransactionState`) and the gc configuration in `historied_data::DEFAULT_GC_CONF`;
those sources are not part of this tree, so they are modelled from the
specification (sections 3, 4.1, 4.2, 4.6).  Everything in `OverlayedChanges` /
`OverlayedChangeSet` is translated directly from the Rust source.

Representation notes:
* byte strings are `List Nat`;
* a per-key history is a list of entries kept *newest first* (the Rust `Vec`
  pushes at the end; keeping the newest entry at the head makes the
  resolve-from-most-recent walks structural recursion);
* the hash maps are association lists; a fresh key is appended at the end, so
  iteration order is first-write order (the Rust `HashMap` has no specified
  order, no claim depends on a particular order beyond determinism);
* the `BTreeSet<u32>` of extrinsic indices is a strictly sorted `List Nat`.
-/

/-- Bytes of a storage key or value. -/
abbrev Bytes := List Nat

/-- Modelled from the spec: the layer marker of the nesting ledger (missing
`historied_data::linear::TransactionState`).  §3 names `Pending`, `Committed`
and `Dropped`; a fourth marker `TxPending` distinguishes the layer opened by
`start_transaction`, which §4.1 and §9 require so that `discard_transaction` /
`commit_transaction` can find the start of the current transactional window and
degrade to prospective-discard semantics when no transaction is open. -/
inductive TransactionState where
  | Pending : TransactionState
  | TxPending : TransactionState
  | Committed : TransactionState
  | Dropped : TransactionState
deriving DecidableEq, Repr

/-- Modelled from the spec: the nesting ledger (missing
`historied_data::linear::States`): an ordered sequence of layer markers,
indexed from 0, plus the committed cursor (§3, §4.1). -/
structure States where
  history : List TransactionState
  commit : Nat
deriving DecidableEq, Repr

/-- Number of layers of the ledger. -/
def States.len (s : States) : Nat := s.history.length

/-- Marker of layer `i`; out-of-range layers are treated as `Dropped`
(never reached: every history entry references an existing layer). -/
def States.marker (s : States) (i : Nat) : TransactionState :=
  s.history.getD i TransactionState.Dropped

/-- Modelled from the spec: the committed cursor accessor (§4.1 `committed()`). -/
def States.committed (s : States) : Nat := s.commit

/-- Modelled from the spec: the initial ledger — one open `Pending` layer and
cursor 0 (§3: sequence length at least 1, last element always `Pending`). -/
def States.init : States := ⟨[TransactionState.Pending], 0⟩

/-- Rewrite the markers of every layer with index at least `t`. -/
def markFrom (f : TransactionState → TransactionState) :
    Nat → List TransactionState → List TransactionState
  | _, [] => []
  | 0, m :: rest => f m :: markFrom f 0 rest
  | t + 1, m :: rest => m :: markFrom f t rest

/-- Marking used when a transactional window is discarded. -/
def toDroppedMark (_ : TransactionState) : TransactionState := TransactionState.Dropped

/-- Marking used when a transactional window is committed; a layer already
`Dropped` is never turned back visible (§3 invariant). -/
def toCommittedMark (m : TransactionState) : TransactionState :=
  if m = TransactionState.Dropped then TransactionState.Dropped else TransactionState.Committed

/-- Index of the most recent `TxPending` layer, scanning positions
`i, i+1, ...` of the given marker list. -/
def lastTxIdxAux : List TransactionState → Nat → Option Nat
  | [], _ => none
  | m :: rest, i =>
    match lastTxIdxAux rest (i + 1) with
    | some j => some j
    | none => if m = TransactionState.TxPending then some i else none

/-- Index of the most recent `TxPending` layer of the ledger, if any. -/
def lastTxIdx (l : List TransactionState) : Option Nat := lastTxIdxAux l 0

/-- First layer of the currently open transactional window: the most recent
`TxPending` layer at or above the committed cursor, or the cursor itself when
no transaction is open (the degrade case of §4.1). -/
def States.txLowerBound (s : States) : Nat :=
  match lastTxIdx s.history with
  | some j => if s.commit ≤ j then j else s.commit
  | none => s.commit

/-- Modelled from the spec: §4.1 `start_transaction` — append a new open
transaction layer, nesting depth increases by one. -/
def States.start_transaction (s : States) : States :=
  ⟨s.history ++ [TransactionState.TxPending], s.commit⟩

/-- Modelled from the spec: §4.1 `discard_transaction` — mark the layers of the
current transactional window `Dropped`, then append a new `Pending` layer; with
no transaction open this degrades to dropping everything above the committed
cursor. -/
def States.discard_transaction (s : States) : States :=
  ⟨markFrom toDroppedMark (States.txLowerBound s) s.history ++ [TransactionState.Pending],
   s.commit⟩

/-- Modelled from the spec: §4.1 `commit_transaction` — mark the layers of the
current transactional window `Committed` (a `Dropped` layer stays `Dropped`),
then append a new `Pending` layer. -/
def States.commit_transaction (s : States) : States :=
  ⟨markFrom toCommittedMark (States.txLowerBound s) s.history ++ [TransactionState.Pending],
   s.commit⟩

/-- Modelled from the spec: §4.1 `commit_prospective` — advance the committed
cursor to the current sequence length, then append a new `Pending` layer. -/
def States.commit_prospective (s : States) : States :=
  ⟨s.history ++ [TransactionState.Pending], s.history.length⟩

/-- Modelled from the spec: §4.1 `discard_prospective` — every layer above the
cursor becomes `Dropped` (§3: layers are never removed from the index space,
only their marker changes), then a fresh `Pending` layer is appended. -/
def States.discard_prospective (s : States) : States :=
  ⟨markFrom toDroppedMark s.commit s.history ++ [TransactionState.Pending], s.commit⟩

/-- Ordered insertion into the strictly sorted list modelling `BTreeSet<u32>`. -/
def insertSorted (e : Nat) : List Nat → List Nat
  | [] => [e]
  | x :: rest =>
    if e < x then e :: x :: rest
    else if e = x then x :: rest
    else x :: insertSorted e rest

/-- The storage value, used inside OverlayedChanges (source lines 49-58):
current value (`none` = deleted) and the set of extrinsic indices where the
value has been changed, filled only with changes-trie support announced. -/
structure OverlayedValue where
  value : Option Bytes
  extrinsics : Option (List Nat)
deriving DecidableEq, Repr

/-- Modelled from the spec: a history entry — a pair of a payload and the
index of the ledger layer it was written at (missing
`historied_data::linear::HistoriedValue`, §3). -/
structure HistoriedValue where
  value : OverlayedValue
  index : Nat
deriving DecidableEq, Repr

/-- Modelled from the spec: the per-key value history (missing
`historied_data::linear::History`, §3/§4.2) — ordered log of entries, kept
newest first here. -/
abbrev History := List HistoriedValue

/-- Modelled from the spec: §4.2 `get` — walk entries from most recent, skip
any whose layer is `Dropped`, return the first surviving payload. -/
def History.get (h : History) (s : States) : Option OverlayedValue :=
  match h with
  | [] => none
  | e :: rest =>
    if States.marker s e.index = TransactionState.Dropped then History.get rest s
    else some e.value

/-- Modelled from the spec: the terminal-pruning step of mutable access
(source comments lines 68-69 and 96: latest entries of a dropped layer are
removed on mutable access) — drop newest entries whose layer is `Dropped`. -/
def History.prune (h : History) (s : States) : History :=
  match h with
  | [] => []
  | e :: rest =>
    if States.marker s e.index = TransactionState.Dropped then History.prune rest s
    else e :: rest

/-- Modelled from the spec: §4.2 write semantics of `History::set` — overwrite
the current entry in place when it belongs to the still-open topmost layer,
append a new entry tagged with the topmost layer otherwise. -/
def History.set (h : History) (s : States) (v : OverlayedValue) : History :=
  let state := States.len s - 1
  match History.prune h s with
  | [] => [⟨v, state⟩]
  | e :: rest =>
    if e.index = state then ⟨v, state⟩ :: rest else ⟨v, state⟩ :: e :: rest

/-- Modelled from the spec: §4.2 `get_committed` — resolve strictly below the
committed cursor, still skipping `Dropped` layers. -/
def History.get_committed (h : History) (s : States) (c : Nat) : Option OverlayedValue :=
  match h with
  | [] => none
  | e :: rest =>
    if e.index < c ∧ States.marker s e.index ≠ TransactionState.Dropped then some e.value
    else History.get_committed rest s c

/-- Modelled from the spec: §4.2 `get_prospective` — resolve at or above the
committed cursor, skipping `Dropped` layers. -/
def History.get_prospective (h : History) (s : States) (c : Nat) : Option OverlayedValue :=
  match h with
  | [] => none
  | e :: rest =>
    if c ≤ e.index ∧ States.marker s e.index ≠ TransactionState.Dropped then some e.value
    else History.get_prospective rest s c

/-- Keep the newest surviving entry below the cursor `c` and drop the older
below-cursor entries it supersedes; entries at or above the cursor are kept. -/
def keepLastBelow (c : Nat) : History → History
  | [] => []
  | e :: rest =>
    if e.index < c then e :: rest.filter (fun e2 => c ≤ e2.index)
    else e :: keepLastBelow c rest

/-- Modelled from the spec: §4.2 `get_mut_pruning` — remove every entry whose
layer is `Dropped`; when the committed cursor is supplied (eager gc), also
remove below-cursor entries superseded by a newer below-cursor survivor. -/
def gcHistory (h : History) (s : States) (committed : Option Nat) : History :=
  let survivors := h.filter (fun e => ¬ States.marker s e.index = TransactionState.Dropped)
  match committed with
  | some c => keepLastBelow c survivors
  | none => survivors

/-- Association-list lookup for the hash maps of the change set. -/
def lookupM {α : Type} (m : List (Bytes × α)) (k : Bytes) : Option α :=
  match m with
  | [] => none
  | (k', v) :: rest => if k' = k then some v else lookupM rest k

/-- `entry(k).or_default()` followed by a mutation: update the value at `k`
through `f`, starting from `d` when the key is absent (appended at the end). -/
def updMap {α : Type} (m : List (Bytes × α)) (k : Bytes) (d : α) (f : α → α) :
    List (Bytes × α) :=
  match m with
  | [] => [(k, f d)]
  | (k', v) :: rest => if k' = k then (k', f v) :: rest else (k', v) :: updMap rest k d f

/-- Update every value of the map through a key-aware function. -/
def mapVals {α : Type} (f : Bytes → α → α) (m : List (Bytes × α)) : List (Bytes × α) :=
  m.map (fun p => (p.1, f p.1 p.2))

/-- Variant of `set` value that updates extrinsics, inner path with an index
(source `set_with_extrinsic_inner_overlayed_value`, lines 113-151): on an
in-place overwrite the index is inserted into the current entry's set; on an
append the current entry's set is cloned and the index inserted into the clone;
with no current entry a fresh singleton set is started. -/
def setWithExtrinsicInner (h : History) (s : States) (value : Option Bytes)
    (extrinsic_index : Nat) : History :=
  let state := States.len s - 1
  match History.prune h s with
  | [] => [⟨⟨value, some (insertSorted extrinsic_index [])⟩, state⟩]
  | e :: rest =>
    if e.index = state then
      ⟨⟨value, some (insertSorted extrinsic_index (e.value.extrinsics.getD []))⟩, state⟩ :: rest
    else
      ⟨⟨value, some (insertSorted extrinsic_index (e.value.extrinsics.getD []))⟩, state⟩
        :: e :: rest

/-- Variant of `set` value that updates extrinsics (source
`set_with_extrinsic_overlayed_value`, lines 97-111). -/
def setWithExtrinsic (h : History) (s : States) (value : Option Bytes)
    (extrinsic_index : Option Nat) : History :=
  match extrinsic_index with
  | some e => setWithExtrinsicInner h s value e
  | none => History.set h s ⟨value, none⟩

/-- Overlayed change set (source lines 72-79): the shared ledger, the top-level
key-to-history map and the child-namespace maps. -/
structure OverlayedChangeSet where
  states : States
  top : List (Bytes × History)
  children : List (Bytes × List (Bytes × History))
deriving DecidableEq, Repr

/-- The changes-trie configuration (external `ChangesTrieConfig`; only its
decidable equality matters here). -/
structure ChangesTrieConfig where
  digest_interval : Nat
  digest_levels : Nat
deriving DecidableEq, Repr

/-- The overlayed changes to state (source lines 33-47): the change set, the
optional changes-trie configuration, the operation counter feeding gc
triggering and the eager-gc policy flag. -/
structure OverlayedChanges where
  changes : OverlayedChangeSet
  changes_trie_config : Option ChangesTrieConfig
  operation_from_last_gc : Nat
  not_eager_gc : Bool
deriving DecidableEq, Repr

/-- Modelled from the spec: the externally supplied cost function and gc
thresholds (missing `historied_data::DEFAULT_GC_CONF`, §4.6/§6); the facade
operations take the configuration as an explicit argument. -/
structure GcConf where
  operation_cost : Option Bytes → Nat
  trigger_commit_gc : Nat
  trigger_transaction_gc : Nat

/-- The default (empty) overlay: empty maps over the initial ledger. -/
def OverlayedChanges.empty : OverlayedChanges :=
  ⟨⟨States.init, [], []⟩, none, 0, false⟩

/-- The result of `get_mut_pruning` seen as data: the pruned history, or
`none` when every entry is dead and the key is to be dropped from its map. -/
def gcHistoryOpt (h : History) (s : States) (committed : Option Nat) : Option History :=
  let h' := gcHistory h s committed
  if h'.isEmpty then none else some h'

/-- One child namespace under gc: prune every history, drop dead keys, and
report `none` when the namespace becomes empty (it is then removed). -/
def gcChildMap (m : List (Bytes × History)) (s : States) (committed : Option Nat) :
    Option (List (Bytes × History)) :=
  let m' := m.filterMap (fun p => (gcHistoryOpt p.2 s committed).map (fun h' => (p.1, h')))
  if m'.isEmpty then none else some m'

/-- `OverlayedChangeSet::gc` (source lines 155-168): prune every history,
remove a key whose pruned history is empty, remove a child namespace that
becomes empty. -/
def OverlayedChangeSet.gc (cs : OverlayedChangeSet) (eager : Bool) : OverlayedChangeSet :=
  let committed := if eager then some (States.committed cs.states) else none
  { cs with
    top := cs.top.filterMap (fun p =>
      (gcHistoryOpt p.2 cs.states committed).map (fun h' => (p.1, h'))),
    children := cs.children.filterMap (fun q =>
      (gcChildMap q.2 cs.states committed).map (fun m' => (q.1, m'))) }

/-- `OverlayedChangeSet::discard_prospective` (source lines 176-178). -/
def OverlayedChangeSet.discard_prospective (cs : OverlayedChangeSet) : OverlayedChangeSet :=
  { cs with states := States.discard_prospective cs.states }

/-- `OverlayedChangeSet::commit_prospective` (source lines 181-183). -/
def OverlayedChangeSet.commit_prospective (cs : OverlayedChangeSet) : OverlayedChangeSet :=
  { cs with states := States.commit_prospective cs.states }

/-- `OverlayedChangeSet::start_transaction` (source lines 186-188). -/
def OverlayedChangeSet.start_transaction (cs : OverlayedChangeSet) : OverlayedChangeSet :=
  { cs with states := States.start_transaction cs.states }

/-- `OverlayedChangeSet::discard_transaction` (source lines 192-194). -/
def OverlayedChangeSet.discard_transaction (cs : OverlayedChangeSet) : OverlayedChangeSet :=
  { cs with states := States.discard_transaction cs.states }

/-- `OverlayedChangeSet::commit_transaction` (source lines 197-199). -/
def OverlayedChangeSet.commit_transaction (cs : OverlayedChangeSet) : OverlayedChangeSet :=
  { cs with states := States.commit_transaction cs.states }

/-- `OverlayedChangeSet::iter_values` (source lines 220-226): current visible
values of the top map or of a child namespace (an absent namespace iterates
as empty). -/
def OverlayedChangeSet.iter_values (cs : OverlayedChangeSet) (storage_key : Option Bytes) :
    List (Bytes × Option Bytes) :=
  let m := match storage_key with
    | some sk => (lookupM cs.children sk).getD []
    | none => cs.top
  m.filterMap (fun p => (History.get p.2 cs.states).map (fun ov => (p.1, ov.value)))

/-- `OverlayedChangeSet::children_iter` (source lines 229-238): for every child
namespace, its currently visible values. -/
def OverlayedChangeSet.children_iter (cs : OverlayedChangeSet) :
    List (Bytes × List (Bytes × Option Bytes)) :=
  cs.children.map (fun q =>
    (q.1, q.2.filterMap (fun p => (History.get p.2 cs.states).map (fun ov => (p.1, ov.value)))))

/-- `OverlayedChangeSet::top_prospective` (source lines 268-277). -/
def OverlayedChangeSet.top_prospective (cs : OverlayedChangeSet) :
    List (Bytes × OverlayedValue) :=
  cs.top.filterMap (fun p =>
    (History.get_prospective p.2 cs.states (States.committed cs.states)).map (fun ov => (p.1, ov)))

/-- `OverlayedChangeSet::top_committed` (source lines 283-292). -/
def OverlayedChangeSet.top_committed (cs : OverlayedChangeSet) :
    List (Bytes × OverlayedValue) :=
  cs.top.filterMap (fun p =>
    (History.get_committed p.2 cs.states (States.committed cs.states)).map (fun ov => (p.1, ov)))

/-- `OverlayedChanges::set_changes_trie_config` (source lines 306-316): install
the configuration, failing without mutation when a different one is already
installed. -/
def OverlayedChanges.set_changes_trie_config (oc : OverlayedChanges)
    (config : ChangesTrieConfig) : Bool × OverlayedChanges :=
  match oc.changes_trie_config with
  | some old_config =>
    if old_config ≠ config then (false, oc)
    else (true, { oc with changes_trie_config := some config })
  | none => (true, { oc with changes_trie_config := some config })

/-- `OverlayedChanges::storage` (source lines 328-335): outer `none` when the
key is unknown to the overlay, `some none` when deleted, `some (some v)` when
set. -/
def OverlayedChanges.storage (oc : OverlayedChanges) (key : Bytes) : Option (Option Bytes) :=
  match lookupM oc.changes.top key with
  | some overlay_value =>
    match History.get overlay_value oc.changes.states with
    | some o_value => some o_value.value
    | none => none
  | none => none

/-- `OverlayedChanges::child_storage` (source lines 340-349). -/
def OverlayedChanges.child_storage (oc : OverlayedChanges) (storage_key key : Bytes) :
    Option (Option Bytes) :=
  match lookupM oc.changes.children storage_key with
  | some map =>
    match lookupM map key with
    | some overlay_value =>
      match History.get overlay_value oc.changes.states with
      | some o_value => some o_value.value
      | none => none
    | none => none
  | none => none

/-- Modelled from the spec: the well-known storage key holding the current
extrinsic index (missing `primitives::storage::well_known_keys::EXTRINSIC_INDEX`,
the byte string ":extrinsic_index"). -/
def EXTRINSIC_INDEX : Bytes :=
  [58, 101, 120, 116, 114, 105, 110, 115, 105, 99, 95, 105, 110, 100, 101, 120]

/-- Modelled from the spec: the reserved "no extrinsic" sentinel index (missing
`changes_trie::NO_EXTRINSIC_INDEX`), the maximal u32. -/
def NO_EXTRINSIC_INDEX : Nat := 4294967295

/-- Modelled from the spec: fixed-width little-endian u32 decoding of the
extrinsic-index marker (external codec); fails on fewer than four bytes. -/
def decodeU32 : Bytes → Option Nat
  | b0 :: b1 :: b2 :: b3 :: _ => some (b0 + 256 * b1 + 65536 * b2 + 16777216 * b3)
  | _ => none

/-- Modelled from the spec: fixed-width little-endian u32 encoding (external
codec), used by the test helper `set_extrinsic_index`. -/
def encodeU32 (e : Nat) : Bytes :=
  [e % 256, e / 256 % 256, e / 65536 % 256, e / 16777216 % 256]

/-- `OverlayedChanges::extrinsic_index` (source lines 540-548): `none` without
a changes-trie configuration; otherwise the decoded marker value, with "no
value" and decode failure both falling back to the sentinel. -/
def OverlayedChanges.extrinsic_index (oc : OverlayedChanges) : Option Nat :=
  match oc.changes_trie_config with
  | some _ =>
    some (match OverlayedChanges.storage oc EXTRINSIC_INDEX with
      | some (some idx) => (decodeU32 idx).getD NO_EXTRINSIC_INDEX
      | _ => NO_EXTRINSIC_INDEX)
  | none => none

/-- `OverlayedChanges::set_storage` (source lines 354-360). -/
def OverlayedChanges.set_storage (conf : GcConf) (oc : OverlayedChanges)
    (key : Bytes) (value : Option Bytes) : OverlayedChanges :=
  let ei := OverlayedChanges.extrinsic_index oc
  { oc with
    operation_from_last_gc := oc.operation_from_last_gc + conf.operation_cost value,
    changes := { oc.changes with
      top := updMap oc.changes.top key []
        (fun h => setWithExtrinsic h oc.changes.states value ei) } }

/-- `OverlayedChanges::set_child_storage` (source lines 365-382). -/
def OverlayedChanges.set_child_storage (conf : GcConf) (oc : OverlayedChanges)
    (storage_key key : Bytes) (value : Option Bytes) : OverlayedChanges :=
  let ei := OverlayedChanges.extrinsic_index oc
  { oc with
    operation_from_last_gc := oc.operation_from_last_gc + conf.operation_cost value,
    changes := { oc.changes with
      children := updMap oc.changes.children storage_key []
        (fun m => updMap m key []
          (fun h => setWithExtrinsic h oc.changes.states value ei)) } }

/-- `OverlayedChanges::clear_child_storage` (source lines 390-398): create the
namespace if absent, add its size to the operation counter and tombstone every
key it holds. -/
def OverlayedChanges.clear_child_storage (oc : OverlayedChanges)
    (storage_key : Bytes) : OverlayedChanges :=
  let ei := OverlayedChanges.extrinsic_index oc
  let map_entry := (lookupM oc.changes.children storage_key).getD []
  { oc with
    operation_from_last_gc := oc.operation_from_last_gc + map_entry.length,
    changes := { oc.changes with
      children := updMap oc.changes.children storage_key []
        (mapVals (fun _ h => setWithExtrinsic h oc.changes.states none ei)) } }

/-- `OverlayedChanges::clear_prefix` (source lines 406-419): tombstone every
top-map key starting with the given bytes, counting the touched keys. -/
def OverlayedChanges.clearPrefix (oc : OverlayedChanges) (pre : Bytes) : OverlayedChanges :=
  let ei := OverlayedChanges.extrinsic_index oc
  let number_removed := (oc.changes.top.filter (fun p => pre.isPrefixOf p.1)).length
  { oc with
    operation_from_last_gc := oc.operation_from_last_gc + number_removed,
    changes := { oc.changes with
      top := mapVals (fun k h =>
        if pre.isPrefixOf k then setWithExtrinsic h oc.changes.states none ei else h)
        oc.changes.top } }

/-- `OverlayedChanges::clear_child_prefix` (source lines 421-435): like
`clear_prefix` inside one child namespace; with the namespace absent nothing at
all is mutated. -/
def OverlayedChanges.clearChildPrefix (oc : OverlayedChanges) (storage_key pre : Bytes) :
    OverlayedChanges :=
  let ei := OverlayedChanges.extrinsic_index oc
  match lookupM oc.changes.children storage_key with
  | some child_change =>
    let number_removed := (child_change.filter (fun p => pre.isPrefixOf p.1)).length
    { oc with
      operation_from_last_gc := oc.operation_from_last_gc + number_removed,
      changes := { oc.changes with
        children := updMap oc.changes.children storage_key []
          (mapVals (fun k h =>
            if pre.isPrefixOf k then setWithExtrinsic h oc.changes.states none ei else h)) } }
  | none => oc

/-- `OverlayedChanges::gc` (source lines 573-575). -/
def OverlayedChanges.gc (oc : OverlayedChanges) (eager : Bool) : OverlayedChanges :=
  { oc with changes := OverlayedChangeSet.gc oc.changes eager }

/-- The counter check of the transaction-boundary methods (source lines
457-461 etc.): past the threshold, reset the counter and run a non-eager gc. -/
def maybeGcTransaction (conf : GcConf) (oc : OverlayedChanges) : OverlayedChanges :=
  if conf.trigger_transaction_gc < oc.operation_from_last_gc then
    OverlayedChanges.gc { oc with operation_from_last_gc := 0 } false
  else oc

/-- The counter check of the prospective-boundary methods (source lines
440-443, 449-452): past the threshold, reset the counter and run a gc that is
eager unless the keep-pre-committed-state flag is set. -/
def maybeGcCommit (conf : GcConf) (oc : OverlayedChanges) : OverlayedChanges :=
  if conf.trigger_commit_gc < oc.operation_from_last_gc then
    OverlayedChanges.gc { oc with operation_from_last_gc := 0 } (!oc.not_eager_gc)
  else oc

/-- `OverlayedChanges::discard_prospective` (source lines 438-444). -/
def OverlayedChanges.discard_prospective (conf : GcConf) (oc : OverlayedChanges) :
    OverlayedChanges :=
  maybeGcCommit conf
    { oc with changes := OverlayedChangeSet.discard_prospective oc.changes }

/-- `OverlayedChanges::commit_prospective` (source lines 447-453). -/
def OverlayedChanges.commit_prospective (conf : GcConf) (oc : OverlayedChanges) :
    OverlayedChanges :=
  maybeGcCommit conf
    { oc with changes := OverlayedChangeSet.commit_prospective oc.changes }

/-- `OverlayedChanges::start_transaction` (source lines 456-462). -/
def OverlayedChanges.start_transaction (conf : GcConf) (oc : OverlayedChanges) :
    OverlayedChanges :=
  maybeGcTransaction conf
    { oc with changes := OverlayedChangeSet.start_transaction oc.changes }

/-- `OverlayedChanges::discard_transaction` (source lines 466-472). -/
def OverlayedChanges.discard_transaction (conf : GcConf) (oc : OverlayedChanges) :
    OverlayedChanges :=
  maybeGcTransaction conf
    { oc with changes := OverlayedChangeSet.discard_transaction oc.changes }

/-- `OverlayedChanges::commit_transaction` (source lines 475-481). -/
def OverlayedChanges.commit_transaction (conf : GcConf) (oc : OverlayedChanges) :
    OverlayedChanges :=
  maybeGcTransaction conf
    { oc with changes := OverlayedChangeSet.commit_transaction oc.changes }

/-- The test helper `set_extrinsic_index` (source lines 508-511): store the
encoded index under the well-known key. -/
def OverlayedChanges.set_extrinsic_index (conf : GcConf) (oc : OverlayedChanges)
    (extrinsic_index : Nat) : OverlayedChanges :=
  OverlayedChanges.set_storage conf oc EXTRINSIC_INDEX (some (encodeU32 extrinsic_index))

/-- Every entry of the history references a layer strictly below `n`. -/
def histIdxOk (n : Nat) (h : History) : Prop := ∀ e ∈ h, e.index < n

/-- Well-formedness of a reachable overlay: the committed cursor is strictly
below the ledger length, the topmost layer is open (not `Dropped`), map keys
are duplicate-free (they model hash maps) and every history entry references
an existing layer. -/
def Wf (oc : OverlayedChanges) : Prop :=
  oc.changes.states.commit < States.len oc.changes.states ∧
  States.marker oc.changes.states (States.len oc.changes.states - 1) ≠
    TransactionState.Dropped ∧
  (oc.changes.top.map Prod.fst).Nodup ∧
  (∀ p ∈ oc.changes.top, histIdxOk (States.len oc.changes.states) p.2) ∧
  (oc.changes.children.map Prod.fst).Nodup ∧
  (∀ q ∈ oc.changes.children, (q.2.map Prod.fst).Nodup ∧
    ∀ p ∈ q.2, histIdxOk (States.len oc.changes.states) p.2)

instance (oc : OverlayedChanges) : Decidable (Wf oc) := by
  unfold Wf histIdxOk
  infer_instance

/-- The visible three-valued value of a key of a key-to-history map, resolved
against a ledger; `OverlayedChanges.storage` computes exactly this on the top
map (absent key and dead history both collapse to the outer `none`). -/
def valueAt (s : States) (m : List (Bytes × History)) (k : Bytes) : Option (Option Bytes) :=
  (History.get ((lookupM m k).getD []) s).map (fun ov => ov.value)

/-- The committed-visible three-valued value of a key: resolution strictly
below the committed cursor of the ledger. -/
def committedValueAt (s : States) (m : List (Bytes × History)) (k : Bytes) :
    Option (Option Bytes) :=
  (History.get_committed ((lookupM m k).getD []) s s.commit).map (fun ov => ov.value)

/-- One storage-mutating entry point of the overlay, for quantifying over
write sequences. -/
inductive WriteOp where
  | setS (key : Bytes) (value : Option Bytes) : WriteOp
  | setC (storage_key key : Bytes) (value : Option Bytes) : WriteOp
  | clearP (pre : Bytes) : WriteOp
  | clearCS (storage_key : Bytes) : WriteOp
  | clearCP (storage_key pre : Bytes) : WriteOp

/-- Apply one write to the overlay. -/
def applyWrite (conf : GcConf) (oc : OverlayedChanges) : WriteOp → OverlayedChanges
  | WriteOp.setS k v => OverlayedChanges.set_storage conf oc k v
  | WriteOp.setC sk k v => OverlayedChanges.set_child_storage conf oc sk k v
  | WriteOp.clearP p => OverlayedChanges.clearPrefix oc p
  | WriteOp.clearCS sk => OverlayedChanges.clear_child_storage oc sk
  | WriteOp.clearCP sk p => OverlayedChanges.clearChildPrefix oc sk p

/-- Apply a sequence of writes, left to right. -/
def applyWrites (conf : GcConf) (w : List WriteOp) (oc : OverlayedChanges) :
    OverlayedChanges :=
  w.foldl (applyWrite conf) oc

/-- Any overlay operation except `commit_prospective`: the operations that may
run between a prospective commit and a later prospective discard in the
commit-durability property. -/
inductive OpNC where
  | write (w : WriteOp) : OpNC
  | startT : OpNC
  | discardT : OpNC
  | commitT : OpNC
  | discardP : OpNC

/-- Apply one non-`commit_prospective` operation. -/
def applyOpNC (conf : GcConf) (oc : OverlayedChanges) : OpNC → OverlayedChanges
  | OpNC.write w => applyWrite conf oc w
  | OpNC.startT => OverlayedChanges.start_transaction conf oc
  | OpNC.discardT => OverlayedChanges.discard_transaction conf oc
  | OpNC.commitT => OverlayedChanges.commit_transaction conf oc
  | OpNC.discardP => OverlayedChanges.discard_prospective conf oc

/-- Apply a sequence of non-`commit_prospective` operations, left to right. -/
def applyOpsNC (conf : GcConf) (w : List OpNC) (oc : OverlayedChanges) :
    OverlayedChanges :=
  w.foldl (applyOpNC conf) oc

/-- Common shape of every write to a history: a payload entry tagged with the
topmost layer replaces the current entry in place or is pushed on top of the
pruned history. -/
def setShape (h : History) (s : States) (ov : OverlayedValue) : History :=
  let state := States.len s - 1
  match History.prune h s with
  | [] => [⟨ov, state⟩]
  | e :: rest =>
    if e.index = state then ⟨ov, state⟩ :: rest else ⟨ov, state⟩ :: e :: rest

/-- A gc configuration with thresholds never reached in the short concrete
scenarios below (costs 1 per operation). -/
def confBig : GcConf := ⟨fun _ => 1, 1000000, 1000000⟩

/-- A gc configuration whose transaction-boundary threshold is crossed after
two operations: boundary calls then trigger a garbage collection. -/
def confTight : GcConf := ⟨fun _ => 1, 100, 1⟩

/-- First half of the §8 example scenario: writes under extrinsics 0, 1, 2 in
one layer, with a changes-trie configuration installed. -/
def scenarioPre : OverlayedChanges :=
  let o := (OverlayedChanges.set_changes_trie_config OverlayedChanges.empty ⟨4, 1⟩).2
  let o := OverlayedChanges.set_extrinsic_index confBig o 0
  let o := OverlayedChanges.set_storage confBig o [1] (some [2])
  let o := OverlayedChanges.set_extrinsic_index confBig o 1
  let o := OverlayedChanges.set_storage confBig o [3] (some [4])
  let o := OverlayedChanges.set_extrinsic_index confBig o 2
  OverlayedChanges.set_storage confBig o [1] (some [6])

/-- Second half of the §8 example scenario: prospective commit, then writes
under extrinsics 3 and 4. -/
def scenarioPost : OverlayedChanges :=
  let o := OverlayedChanges.commit_prospective confBig scenarioPre
  let o := OverlayedChanges.set_extrinsic_index confBig o 3
  let o := OverlayedChanges.set_storage confBig o [3] (some [7])
  let o := OverlayedChanges.set_extrinsic_index confBig o 4
  OverlayedChanges.set_storage confBig o [1] (some [8])

/-- Drop the bookkeeping entry of the well-known extrinsic-index key from a
view, as the reference test does before comparing views. -/
def stripExtrinsicKey (l : List (Bytes × OverlayedValue)) : List (Bytes × OverlayedValue) :=
  l.filter (fun p => p.1 ≠ EXTRINSIC_INDEX)

/-- A reachable overlay holding a key whose whole history lies in dropped
layers: one write followed by a transaction discard. -/
def cexC3state : OverlayedChanges :=
  OverlayedChanges.discard_transaction confBig
    (OverlayedChanges.set_storage confBig OverlayedChanges.empty [1] (some [2]))

/-- A reachable overlay where a key was written under extrinsic 0 and, after a
prospective commit, rewritten under extrinsic 4 — appending a new history
entry for the new layer. -/
def cexC4state : OverlayedChanges :=
  let o := (OverlayedChanges.set_changes_trie_config OverlayedChanges.empty ⟨4, 1⟩).2
  let o := OverlayedChanges.set_extrinsic_index confBig o 0
  let o := OverlayedChanges.set_storage confBig o [1] (some [2])
  let o := OverlayedChanges.commit_prospective confBig o
  let o := OverlayedChanges.set_extrinsic_index confBig o 4
  OverlayedChanges.set_storage confBig o [1] (some [8])

/-- A reachable overlay with a child namespace whose only key has a fully
dead history. -/
def cexC9state : OverlayedChanges :=
  OverlayedChanges.discard_transaction confBig
    (OverlayedChanges.set_child_storage confBig OverlayedChanges.empty [7] [1] (some [2]))

/-- A reachable overlay with one dead key, one live key, and an operation
counter already past the tight transaction-gc threshold. -/
def cexC1Base : OverlayedChanges :=
  let o := OverlayedChanges.set_storage confTight OverlayedChanges.empty [1] (some [5])
  let o := OverlayedChanges.discard_transaction confTight o
  OverlayedChanges.set_storage confTight o [2] (some [7])

/-- The transaction-wrapped execution of a bare prefix-clear from
`cexC1Base`: the boundary call garbage-collects the dead key first. -/
def cexC1A : OverlayedChanges :=
  OverlayedChanges.commit_transaction confTight
    (applyWrites confTight [WriteOp.clearP []]
      (OverlayedChanges.start_transaction confTight cexC1Base))

/-- The direct execution of the same prefix-clear from `cexC1Base`: the dead
key is still materialized and receives a tombstone. -/
def cexC1B : OverlayedChanges := applyWrites confTight [WriteOp.clearP []] cexC1Base

/-- Invariant carried across the operations between a prospective commit and a
later prospective discard: the cursor stays at `c`, the ledger stays
well-formed, and every key's committed-visible value stays `V`. -/
def C2Inv (c : Nat) (V : Bytes → Option (Option Bytes)) (oc : OverlayedChanges) : Prop :=
  oc.changes.states.commit = c ∧
  c < States.len oc.changes.states ∧
  States.marker oc.changes.states (States.len oc.changes.states - 1) ≠
    TransactionState.Dropped ∧
  (oc.changes.top.map Prod.fst).Nodup ∧
  (∀ p ∈ oc.changes.top, histIdxOk (States.len oc.changes.states) p.2) ∧
  (∀ k2, committedValueAt oc.changes.states oc.changes.top k2 = V k2)

/-- Invariant carried across the writes between `start_transaction` and the
matching `discard_transaction`: the ledger stays at the started state `sA`,
entries stay bounded, and every key's value as seen from the post-discard
ledger `sF` stays `V`. -/
def C1DiscardInv (sA sF : States) (V : Bytes → Option (Option Bytes))
    (oc : OverlayedChanges) : Prop :=
  oc.changes.states = sA ∧
  (oc.changes.top.map Prod.fst).Nodup ∧
  (∀ p ∈ oc.changes.top, histIdxOk (States.len sA) p.2) ∧
  (∀ k2, valueAt sF oc.changes.top k2 = V k2)

/-- Simulation relation between the transaction-wrapped execution of a write
sequence (ledger `sA`) and its direct execution (ledger `sB`): same installed
configuration, same materialized top keys, and the same visible three-valued
value for every key. -/
def C1CommitRel (sA sB : States) (cfg : Option ChangesTrieConfig)
    (ocA ocB : OverlayedChanges) : Prop :=
  ocA.changes.states = sA ∧
  ocB.changes.states = sB ∧
  ocA.changes_trie_config = cfg ∧
  ocB.changes_trie_config = cfg ∧
  (ocA.changes.top.map Prod.fst).Nodup ∧
  (∀ k2, (lookupM ocA.changes.top k2).isSome = (lookupM ocB.changes.top k2).isSome) ∧
  (∀ p ∈ ocA.changes.top, histIdxOk (States.len sA) p.2) ∧
  (∀ k2, valueAt sA ocA.changes.top k2 = valueAt sB ocB.changes.top k2)

/-! ## Ledger helper lemmas -/

theorem markFrom_length (f : TransactionState → TransactionState) :
    ∀ (t : Nat) (l : List TransactionState), (markFrom f t l).length = l.length := by
  intro t l
  induction l generalizing t with
  | nil => cases t <;> rfl
  | cons m rest ih =>
    cases t with
    | zero => simp [markFrom, ih]
    | succ t => simp [markFrom, ih]

theorem markFrom_getD_lt (f : TransactionState → TransactionState) :
    ∀ (t : Nat) (l : List TransactionState) (i : Nat) (d : TransactionState), i < t →
      (markFrom f t l).getD i d = l.getD i d := by
  intro t l
  induction l generalizing t with
  | nil => intro i d _; cases t <;> rfl
  | cons m rest ih =>
    intro i d hi
    cases t with
    | zero => omega
    | succ t =>
      cases i with
      | zero => rfl
      | succ i => simpa [markFrom] using ih t i d (by omega)

theorem markFrom_getD_ge (f : TransactionState → TransactionState) :
    ∀ (t : Nat) (l : List TransactionState) (i : Nat) (d : TransactionState),
      t ≤ i → i < l.length →
      (markFrom f t l).getD i d = f (l.getD i d) := by
  intro t l
  induction l generalizing t with
  | nil => intro i d _ hl; simp at hl
  | cons m rest ih =>
    intro i d ht hl
    cases t with
    | zero =>
      cases i with
      | zero => rfl
      | succ i => simpa [markFrom] using ih 0 i d (by omega) (by simpa using hl)
    | succ t =>
      cases i with
      | zero => omega
      | succ i => simpa [markFrom] using ih t i d (by omega) (by simpa using hl)

theorem markFrom_append (f : TransactionState → TransactionState) :
    ∀ (l l2 : List TransactionState),
      markFrom f l.length (l ++ l2) = l ++ markFrom f 0 l2 := by
  intro l l2
  induction l with
  | nil => rfl
  | cons m rest ih => simpa [markFrom] using ih

theorem getD_append_lt {α : Type} (l l2 : List α) (i : Nat) (d : α) (h : i < l.length) :
    (l ++ l2).getD i d = l.getD i d := by
  induction l generalizing i with
  | nil => simp at h
  | cons a rest ih =>
    cases i with
    | zero => rfl
    | succ i => simpa using ih i (by simpa using h)

theorem getD_append_self {α : Type} (l : List α) (x : α) (d : α) :
    (l ++ [x]).getD l.length d = x := by
  induction l with
  | nil => rfl
  | cons a rest ih => simp [ih]

theorem lastTxIdxAux_append_tx :
    ∀ (l : List TransactionState) (i : Nat),
      lastTxIdxAux (l ++ [TransactionState.TxPending]) i = some (i + l.length) := by
  intro l
  induction l with
  | nil => intro i; rfl
  | cons m rest ih =>
    intro i
    show (match lastTxIdxAux (rest ++ [TransactionState.TxPending]) (i + 1) with
      | some j => some j
      | none => if m = TransactionState.TxPending then some i else none) =
        some (i + (m :: rest).length)
    rw [ih (i + 1)]
    show some (i + 1 + rest.length) = some (i + (rest.length + 1))
    congr 1
    omega

theorem lastTxIdx_append_tx (l : List TransactionState) :
    lastTxIdx (l ++ [TransactionState.TxPending]) = some l.length := by
  simpa [lastTxIdx] using lastTxIdxAux_append_tx l 0

theorem txLowerBound_ge_commit (s : States) : s.commit ≤ States.txLowerBound s := by
  unfold States.txLowerBound
  cases lastTxIdx s.history with
  | none => simp
  | some j =>
    by_cases h : s.commit ≤ j <;> simp [h]

/-! ## History resolution lemmas -/

theorem get_append_dropped (s : States) :
    ∀ (pre t : History),
      (∀ e ∈ pre, States.marker s e.index = TransactionState.Dropped) →
      History.get (pre ++ t) s = History.get t s := by
  intro pre t hpre
  induction pre with
  | nil => rfl
  | cons e rest ih =>
    have he : States.marker s e.index = TransactionState.Dropped := hpre e (by simp)
    simp only [List.cons_append, History.get, he, if_pos rfl]
    exact ih (fun e' h' => hpre e' (by simp [h']))

theorem get_none_of_all_dropped (s : States) :
    ∀ h : History, (∀ e ∈ h, States.marker s e.index = TransactionState.Dropped) →
      History.get h s = none := by
  intro h hall
  induction h with
  | nil => rfl
  | cons e rest ih =>
    have he := hall e (by simp)
    simp only [History.get, he, if_pos rfl]
    exact ih (fun e' h' => hall e' (by simp [h']))

theorem get_eq_none_iff (s : States) (h : History) :
    History.get h s = none ↔
      ∀ e ∈ h, States.marker s e.index = TransactionState.Dropped := by
  constructor
  · intro hn
    induction h with
    | nil => intro e he; simp at he
    | cons e rest ih =>
      intro e' he'
      by_cases hd : States.marker s e.index = TransactionState.Dropped
      · rcases List.mem_cons.mp he' with h1 | h1
        · rw [h1]; exact hd
        · exact ih (by simpa [History.get, hd] using hn) e' h1
      · simp [History.get, hd] at hn
  · exact get_none_of_all_dropped s h

theorem get_congr (s s' : States) :
    ∀ h : History,
      (∀ e ∈ h, (States.marker s' e.index = TransactionState.Dropped ↔
                 States.marker s e.index = TransactionState.Dropped)) →
      History.get h s' = History.get h s := by
  intro h hiff
  induction h with
  | nil => rfl
  | cons e rest ih =>
    by_cases hd : States.marker s e.index = TransactionState.Dropped
    · have hd' : States.marker s' e.index = TransactionState.Dropped :=
        (hiff e (by simp)).mpr hd
      simp only [History.get, hd, hd', if_pos rfl]
      exact ih (fun e' h' => hiff e' (by simp [h']))
    · have hd' : ¬ States.marker s' e.index = TransactionState.Dropped :=
        fun hcon => hd ((hiff e (by simp)).mp hcon)
      simp [History.get, hd, hd']

theorem get_filter (s' : States) (p : HistoriedValue → Bool) :
    ∀ h : History,
      (∀ e ∈ h, p e = false → States.marker s' e.index = TransactionState.Dropped) →
      History.get (h.filter p) s' = History.get h s' := by
  intro h hp
  induction h with
  | nil => rfl
  | cons e rest ih =>
    by_cases hpe : p e
    · rw [List.filter_cons_of_pos hpe]
      by_cases hd : States.marker s' e.index = TransactionState.Dropped
      · simp only [History.get, hd, if_pos rfl]
        exact ih (fun e' h' hh => hp e' (by simp [h']) hh)
      · simp [History.get, hd]
    · rw [List.filter_cons_of_neg hpe]
      have hd : States.marker s' e.index = TransactionState.Dropped :=
        hp e (by simp) (by simpa using hpe)
      rw [show History.get (e :: rest) s' = History.get rest s' by
        simp [History.get, hd]]
      exact ih (fun e' h' hh => hp e' (by simp [h']) hh)

theorem keepLastBelow_get (s : States) (c : Nat) :
    ∀ h : History,
      (∀ e ∈ h, ¬ States.marker s e.index = TransactionState.Dropped) →
      History.get (keepLastBelow c h) s = History.get h s := by
  intro h hall
  cases h with
  | nil => rfl
  | cons e rest =>
    have he : ¬ States.marker s e.index = TransactionState.Dropped := hall e (by simp)
    by_cases hc : e.index < c
    · simp [keepLastBelow, hc, History.get, he]
    · simp [keepLastBelow, hc, History.get, he]

theorem prune_decomp (s : States) :
    ∀ h : History, ∃ pre : History, h = pre ++ History.prune h s ∧
      ∀ e ∈ pre, States.marker s e.index = TransactionState.Dropped := by
  intro h
  induction h with
  | nil => exact ⟨[], rfl, by simp⟩
  | cons e rest ih =>
    by_cases hd : States.marker s e.index = TransactionState.Dropped
    · obtain ⟨pre, hp, hall⟩ := ih
      refine ⟨e :: pre, ?_, ?_⟩
      · have hpr : History.prune (e :: rest) s = History.prune rest s := by
          simp [History.prune, hd]
        rw [hpr, List.cons_append, ← hp]
      · intro e' he'
        rcases List.mem_cons.mp he' with h1 | h1
        · rw [h1]; exact hd
        · exact hall e' h1
    · exact ⟨[], by simp [History.prune, hd], by simp⟩

theorem prune_get (s : States) :
    ∀ h : History, History.get (History.prune h s) s = History.get h s := by
  intro h
  induction h with
  | nil => rfl
  | cons e rest ih =>
    by_cases hd : States.marker s e.index = TransactionState.Dropped <;>
      simp [History.prune, History.get, hd, ih]

theorem prune_mem (s : States) :
    ∀ (h : History) (e : HistoriedValue), e ∈ History.prune h s → e ∈ h := by
  intro h
  induction h with
  | nil => intro e he; simp [History.prune] at he
  | cons e0 rest ih =>
    intro e he
    by_cases hd : States.marker s e0.index = TransactionState.Dropped
    · simp only [History.prune, hd, if_pos rfl] at he
      exact List.mem_cons.mpr (Or.inr (ih e he))
    · simpa [History.prune, hd] using he

theorem prune_eq_nil_iff (s : States) (h : History) :
    History.prune h s = [] ↔
      ∀ e ∈ h, States.marker s e.index = TransactionState.Dropped := by
  induction h with
  | nil => simp [History.prune]
  | cons e rest ih =>
    by_cases hd : States.marker s e.index = TransactionState.Dropped
    · have hpr : History.prune (e :: rest) s = History.prune rest s := by
        simp [History.prune, hd]
      rw [hpr, ih]
      constructor
      · intro hall e' he'
        rcases List.mem_cons.mp he' with h1 | h1
        · rw [h1]; exact hd
        · exact hall e' h1
      · intro hall e' he'; exact hall e' (by simp [he'])
    · simp [History.prune, hd]

theorem get_isSome_iff (s : States) (h : History) :
    (History.get h s).isSome = true ↔
      ∃ e ∈ h, States.marker s e.index ≠ TransactionState.Dropped := by
  rw [Option.isSome_iff_ne_none]
  constructor
  · intro hne
    by_contra hcon
    push_neg at hcon
    exact hne (get_none_of_all_dropped s h hcon)
  · intro ⟨e, he, hnd⟩ hcon
    exact hnd ((get_eq_none_iff s h).mp hcon e he)

/-! ## Committed-view resolution lemmas -/

theorem gcm_append_dropped (s : States) (c : Nat) :
    ∀ (pre t : History),
      (∀ e ∈ pre, States.marker s e.index = TransactionState.Dropped) →
      History.get_committed (pre ++ t) s c = History.get_committed t s c := by
  intro pre t hpre
  induction pre with
  | nil => rfl
  | cons e rest ih =>
    have he : States.marker s e.index = TransactionState.Dropped := hpre e (by simp)
    have hcond : ¬ (e.index < c ∧ States.marker s e.index ≠ TransactionState.Dropped) := by
      intro ⟨_, hne⟩; exact hne he
    simp only [List.cons_append, History.get_committed, if_neg hcond]
    exact ih (fun e' h' => hpre e' (by simp [h']))

theorem gcm_prepend_high (s : States) (c : Nat) (e : HistoriedValue) (h : History)
    (hc : c ≤ e.index) :
    History.get_committed (e :: h) s c = History.get_committed h s c := by
  have hcond : ¬ (e.index < c ∧ States.marker s e.index ≠ TransactionState.Dropped) := by
    intro ⟨hlt, _⟩; omega
  simp [History.get_committed, hcond]

theorem gcm_congr (c : Nat) (s s' : States) :
    ∀ h : History,
      (∀ e ∈ h, e.index < c →
        (States.marker s' e.index = TransactionState.Dropped ↔
         States.marker s e.index = TransactionState.Dropped)) →
      History.get_committed h s' c = History.get_committed h s c := by
  intro h hiff
  induction h with
  | nil => rfl
  | cons e rest ih =>
    have ihr := ih (fun e' h' hlt => hiff e' (by simp [h']) hlt)
    by_cases hlt : e.index < c
    · by_cases hd : States.marker s e.index = TransactionState.Dropped
      · have hd' : States.marker s' e.index = TransactionState.Dropped :=
          (hiff e (by simp) hlt).mpr hd
        simp [History.get_committed, hd, hd', ihr]
      · have hd' : ¬ States.marker s' e.index = TransactionState.Dropped :=
          fun hcon => hd ((hiff e (by simp) hlt).mp hcon)
        simp [History.get_committed, hlt, hd, hd']
    · simp [History.get_committed, hlt, ihr]

theorem gcm_filter (s' : States) (c : Nat) (p : HistoriedValue → Bool) :
    ∀ h : History,
      (∀ e ∈ h, p e = false → States.marker s' e.index = TransactionState.Dropped) →
      History.get_committed (h.filter p) s' c = History.get_committed h s' c := by
  intro h hp
  induction h with
  | nil => rfl
  | cons e rest ih =>
    have ihr := ih (fun e' h' hh => hp e' (by simp [h']) hh)
    by_cases hpe : p e
    · rw [List.filter_cons_of_pos hpe]
      by_cases hcond : e.index < c ∧ States.marker s' e.index ≠ TransactionState.Dropped
      · simp [History.get_committed, hcond]
      · simp [History.get_committed, hcond, ihr]
    · rw [List.filter_cons_of_neg hpe]
      have hd : States.marker s' e.index = TransactionState.Dropped :=
        hp e (by simp) (by simpa using hpe)
      have hcond : ¬ (e.index < c ∧ States.marker s' e.index ≠ TransactionState.Dropped) := by
        intro ⟨_, hne⟩; exact hne hd
      rw [show History.get_committed (e :: rest) s' c = History.get_committed rest s' c by
        simp [History.get_committed, hcond]]
      exact ihr

theorem gcm_keepLastBelow (s : States) (c : Nat) :
    ∀ h : History,
      (∀ e ∈ h, ¬ States.marker s e.index = TransactionState.Dropped) →
      History.get_committed (keepLastBelow c h) s c = History.get_committed h s c := by
  intro h hall
  induction h with
  | nil => rfl
  | cons e rest ih =>
    have he : ¬ States.marker s e.index = TransactionState.Dropped := hall e (by simp)
    by_cases hlt : e.index < c
    · simp [keepLastBelow, hlt, History.get_committed, he]
    · have ihr := ih (fun e' h' => hall e' (by simp [h']))
      simp [keepLastBelow, hlt, History.get_committed, he, ihr]

theorem gcm_eq_get_of_below (s : States) (c : Nat) :
    ∀ h : History, (∀ e ∈ h, e.index < c) →
      History.get_committed h s c = History.get h s := by
  intro h hall
  induction h with
  | nil => rfl
  | cons e rest ih =>
    have hlt : e.index < c := hall e (by simp)
    have ihr := ih (fun e' h' => hall e' (by simp [h']))
    by_cases hd : States.marker s e.index = TransactionState.Dropped
    · simp [History.get_committed, History.get, hlt, hd, ihr]
    · simp [History.get_committed, History.get, hlt, hd]

theorem get_eq_gcm_of_dropped_high (s' s : States) (c : Nat) :
    ∀ h : History,
      (∀ e ∈ h,
        (c ≤ e.index → States.marker s' e.index = TransactionState.Dropped) ∧
        (e.index < c →
          (States.marker s' e.index = TransactionState.Dropped ↔
           States.marker s e.index = TransactionState.Dropped))) →
      History.get h s' = History.get_committed h s c := by
  intro h hp
  induction h with
  | nil => rfl
  | cons e rest ih =>
    have ihr := ih (fun e' h' => hp e' (by simp [h']))
    by_cases hlt : e.index < c
    · by_cases hd : States.marker s e.index = TransactionState.Dropped
      · have hd' : States.marker s' e.index = TransactionState.Dropped :=
          ((hp e (by simp)).2 hlt).mpr hd
        simp [History.get, History.get_committed, hd, hd', ihr]
      · have hd' : ¬ States.marker s' e.index = TransactionState.Dropped :=
          fun hcon => hd (((hp e (by simp)).2 hlt).mp hcon)
        simp [History.get, History.get_committed, hlt, hd, hd']
    · have hd' : States.marker s' e.index = TransactionState.Dropped :=
        (hp e (by simp)).1 (by omega)
      simp [History.get, History.get_committed, hlt, hd', ihr]

/-! ## Garbage-collection primitive lemmas -/

theorem gcHistory_none (h : History) (s : States) :
    gcHistory h s none =
      h.filter (fun e => ¬ States.marker s e.index = TransactionState.Dropped) := rfl

theorem gcHistory_some (h : History) (s : States) (c : Nat) :
    gcHistory h s (some c) =
      keepLastBelow c
        (h.filter (fun e => ¬ States.marker s e.index = TransactionState.Dropped)) := rfl

theorem survivors_nondropped (s : States) (h : History) (e : HistoriedValue)
    (he : e ∈ h.filter (fun e => ¬ States.marker s e.index = TransactionState.Dropped)) :
    ¬ States.marker s e.index = TransactionState.Dropped := by
  have := List.of_mem_filter he
  simpa using this

theorem survivors_get (s : States) (h : History) :
    History.get
      (h.filter (fun e => ¬ States.marker s e.index = TransactionState.Dropped)) s =
      History.get h s := by
  apply get_filter
  intro e _ hf
  simpa using hf

theorem survivors_gcm (s : States) (c : Nat) (h : History) :
    History.get_committed
      (h.filter (fun e => ¬ States.marker s e.index = TransactionState.Dropped)) s c =
      History.get_committed h s c := by
  apply gcm_filter
  intro e _ hf
  simpa using hf

theorem keepLastBelow_mem (c : Nat) :
    ∀ (l : History) (e : HistoriedValue), e ∈ keepLastBelow c l → e ∈ l := by
  intro l
  induction l with
  | nil => intro e he; simp [keepLastBelow] at he
  | cons e0 rest ih =>
    intro e he
    by_cases hc : e0.index < c
    · simp only [keepLastBelow, if_pos hc] at he
      rcases List.mem_cons.mp he with h1 | h1
      · simp [h1]
      · exact List.mem_cons.mpr (Or.inr (List.mem_of_mem_filter h1))
    · simp only [keepLastBelow, if_neg hc] at he
      rcases List.mem_cons.mp he with h1 | h1
      · simp [h1]
      · exact List.mem_cons.mpr (Or.inr (ih e h1))

theorem gcHistory_mem (s : States) (cm : Option Nat) (h : History) (e : HistoriedValue)
    (he : e ∈ gcHistory h s cm) : e ∈ h := by
  cases cm with
  | none => rw [gcHistory_none] at he; exact List.mem_of_mem_filter he
  | some c =>
    rw [gcHistory_some] at he
    exact List.mem_of_mem_filter (keepLastBelow_mem c _ e he)

theorem gcHistory_get (s : States) (cm : Option Nat) (h : History) :
    History.get (gcHistory h s cm) s = History.get h s := by
  cases cm with
  | none => rw [gcHistory_none]; exact survivors_get s h
  | some c =>
    rw [gcHistory_some,
      keepLastBelow_get s c _ (fun e he => survivors_nondropped s h e he)]
    exact survivors_get s h

theorem gcHistory_gcm (s : States) (cm : Option Nat) (h : History)
    (hcm : cm = none ∨ cm = some s.commit) :
    History.get_committed (gcHistory h s cm) s s.commit = History.get_committed h s s.commit := by
  rcases hcm with hcm | hcm
  · rw [hcm, gcHistory_none]; exact survivors_gcm s s.commit h
  · rw [hcm, gcHistory_some,
      gcm_keepLastBelow s s.commit _ (fun e he => survivors_nondropped s h e he)]
    exact survivors_gcm s s.commit h

theorem keepLastBelow_eq_nil_iff (c : Nat) (l : History) :
    keepLastBelow c l = [] ↔ l = [] := by
  cases l with
  | nil => simp [keepLastBelow]
  | cons e rest => by_cases hc : e.index < c <;> simp [keepLastBelow, hc]

theorem gcHistory_eq_nil_iff (s : States) (cm : Option Nat) (h : History) :
    gcHistory h s cm = [] ↔ History.get h s = none := by
  have hfil : (h.filter (fun e => ¬ States.marker s e.index = TransactionState.Dropped)) = []
      ↔ History.get h s = none := by
    rw [List.filter_eq_nil_iff, get_eq_none_iff]
    constructor
    · intro hall e he
      have := hall e he
      simpa using this
    · intro hall e he
      simp [hall e he]
  cases cm with
  | none => rw [gcHistory_none]; exact hfil
  | some c => rw [gcHistory_some, keepLastBelow_eq_nil_iff]; exact hfil

theorem keepLastBelow_idem (c : Nat) :
    ∀ l : History, keepLastBelow c (keepLastBelow c l) = keepLastBelow c l := by
  intro l
  induction l with
  | nil => rfl
  | cons e rest ih =>
    by_cases hc : e.index < c
    · simp only [keepLastBelow, if_pos hc]
      congr 1
      exact List.filter_eq_self.mpr (fun a ha => (List.mem_filter.mp ha).2)
    · simp only [keepLastBelow, if_neg hc, ih]

theorem gcHistory_idem (s : States) (cm : Option Nat) (h : History) :
    gcHistory (gcHistory h s cm) s cm = gcHistory h s cm := by
  cases cm with
  | none =>
    rw [gcHistory_none, gcHistory_none]
    exact List.filter_eq_self.mpr (fun a ha => (List.mem_filter.mp ha).2)
  | some c =>
    rw [gcHistory_some, gcHistory_some]
    have h1 : (keepLastBelow c
        (h.filter (fun e => ¬ States.marker s e.index = TransactionState.Dropped))).filter
          (fun e => ¬ States.marker s e.index = TransactionState.Dropped) =
        keepLastBelow c
          (h.filter (fun e => ¬ States.marker s e.index = TransactionState.Dropped)) :=
      List.filter_eq_self.mpr (fun a ha => by
        have hm := keepLastBelow_mem c _ a ha
        exact (List.mem_filter.mp hm).2)
    rw [h1]
    exact keepLastBelow_idem c _

/-! ## Write-shape lemmas -/

theorem setWithExtrinsic_shape (h : History) (s : States) (v : Option Bytes)
    (ei : Option Nat) :
    ∃ ov : OverlayedValue, ov.value = v ∧ setWithExtrinsic h s v ei = setShape h s ov := by
  cases ei with
  | none => exact ⟨⟨v, none⟩, rfl, rfl⟩
  | some e =>
    cases hp : History.prune h s with
    | nil =>
      refine ⟨⟨v, some (insertSorted e [])⟩, rfl, ?_⟩
      simp [setWithExtrinsic, setWithExtrinsicInner, setShape, hp]
    | cons e0 rest =>
      refine ⟨⟨v, some (insertSorted e (e0.value.extrinsics.getD []))⟩, rfl, ?_⟩
      simp only [setWithExtrinsic, setWithExtrinsicInner, setShape, hp]

theorem setShape_get (h : History) (s : States) (ov : OverlayedValue)
    (hopen : ¬ States.marker s (States.len s - 1) = TransactionState.Dropped) :
    History.get (setShape h s ov) s = some ov := by
  cases hp : History.prune h s with
  | nil => simp [setShape, hp, History.get, hopen]
  | cons e0 rest =>
    by_cases hidx : e0.index = States.len s - 1 <;>
      simp [setShape, hp, hidx, History.get, hopen]

theorem setShape_get_other (h : History) (s s' : States) (ov : OverlayedValue)
    (hdrop : States.marker s' (States.len s - 1) = TransactionState.Dropped)
    (hcompat : ∀ e ∈ h, States.marker s e.index = TransactionState.Dropped →
      States.marker s' e.index = TransactionState.Dropped) :
    History.get (setShape h s ov) s' = History.get h s' := by
  obtain ⟨pre, hdecomp, hpre⟩ := prune_decomp s h
  have hpre' : ∀ e ∈ pre, States.marker s' e.index = TransactionState.Dropped := by
    intro e he
    exact hcompat e (by rw [hdecomp]; exact List.mem_append.mpr (Or.inl he)) (hpre e he)
  have hright : History.get h s' = History.get (History.prune h s) s' := by
    conv_lhs => rw [hdecomp]
    exact get_append_dropped s' pre _ hpre'
  cases hp : History.prune h s with
  | nil =>
    rw [hright, hp]
    simp [setShape, hp, History.get, hdrop]
  | cons e0 rest =>
    rw [hright, hp]
    by_cases hidx : e0.index = States.len s - 1
    · have he0 : States.marker s' e0.index = TransactionState.Dropped := by
        rw [hidx]; exact hdrop
      simp [setShape, hp, hidx, History.get, hdrop, he0]
    · simp [setShape, hp, hidx, History.get, hdrop]

theorem setShape_gcm (h : History) (s : States) (ov : OverlayedValue) (c : Nat)
    (hc : c ≤ States.len s - 1) :
    History.get_committed (setShape h s ov) s c = History.get_committed h s c := by
  obtain ⟨pre, hdecomp, hpre⟩ := prune_decomp s h
  have hright : History.get_committed h s c =
      History.get_committed (History.prune h s) s c := by
    conv_lhs => rw [hdecomp]
    exact gcm_append_dropped s c pre _ hpre
  cases hp : History.prune h s with
  | nil =>
    rw [hright, hp]
    have : setShape h s ov = [⟨ov, States.len s - 1⟩] := by simp [setShape, hp]
    rw [this, gcm_prepend_high s c _ [] hc]
  | cons e0 rest =>
    by_cases hidx : e0.index = States.len s - 1
    · have hsh : setShape h s ov = ⟨ov, States.len s - 1⟩ :: rest := by
        simp [setShape, hp, hidx]
      rw [hsh, gcm_prepend_high s c _ rest hc, hright, hp,
        gcm_prepend_high s c e0 rest (by rw [hidx]; exact hc)]
    · have hsh : setShape h s ov = ⟨ov, States.len s - 1⟩ :: e0 :: rest := by
        simp [setShape, hp, hidx]
      rw [hsh, gcm_prepend_high s c _ (e0 :: rest) hc, hright, hp]

theorem setShape_mem (h : History) (s : States) (ov : OverlayedValue) (e : HistoriedValue)
    (he : e ∈ setShape h s ov) : e.index = States.len s - 1 ∨ e ∈ h := by
  cases hp : History.prune h s with
  | nil =>
    rw [show setShape h s ov = [⟨ov, States.len s - 1⟩] by simp [setShape, hp]] at he
    simp at he
    left; rw [he]
  | cons e0 rest =>
    by_cases hidx : e0.index = States.len s - 1
    · rw [show setShape h s ov = ⟨ov, States.len s - 1⟩ :: rest by
        simp [setShape, hp, hidx]] at he
      rcases List.mem_cons.mp he with h1 | h1
      · left; rw [h1]
      · right
        exact prune_mem s h e (by rw [hp]; exact List.mem_cons.mpr (Or.inr h1))
    · rw [show setShape h s ov = ⟨ov, States.len s - 1⟩ :: e0 :: rest by
        simp [setShape, hp, hidx]] at he
      rcases List.mem_cons.mp he with h1 | h1
      · left; rw [h1]
      · right
        exact prune_mem s h e (by rw [hp]; exact h1)

theorem setWithExtrinsic_get_value (h : History) (s : States) (v : Option Bytes)
    (ei : Option Nat)
    (hopen : ¬ States.marker s (States.len s - 1) = TransactionState.Dropped) :
    (History.get (setWithExtrinsic h s v ei) s).map (fun ov => ov.value) = some v := by
  obtain ⟨ov, hov, heq⟩ := setWithExtrinsic_shape h s v ei
  rw [heq, setShape_get h s ov hopen]
  simp [hov]

theorem setWithExtrinsic_get_other (h : History) (s s' : States) (v : Option Bytes)
    (ei : Option Nat)
    (hdrop : States.marker s' (States.len s - 1) = TransactionState.Dropped)
    (hcompat : ∀ e ∈ h, States.marker s e.index = TransactionState.Dropped →
      States.marker s' e.index = TransactionState.Dropped) :
    History.get (setWithExtrinsic h s v ei) s' = History.get h s' := by
  obtain ⟨ov, _, heq⟩ := setWithExtrinsic_shape h s v ei
  rw [heq]
  exact setShape_get_other h s s' ov hdrop hcompat

theorem setWithExtrinsic_gcm (h : History) (s : States) (v : Option Bytes)
    (ei : Option Nat) (c : Nat) (hc : c ≤ States.len s - 1) :
    History.get_committed (setWithExtrinsic h s v ei) s c =
      History.get_committed h s c := by
  obtain ⟨ov, _, heq⟩ := setWithExtrinsic_shape h s v ei
  rw [heq]
  exact setShape_gcm h s ov c hc

theorem setWithExtrinsic_mem (h : History) (s : States) (v : Option Bytes)
    (ei : Option Nat) (e : HistoriedValue)
    (he : e ∈ setWithExtrinsic h s v ei) : e.index = States.len s - 1 ∨ e ∈ h := by
  obtain ⟨ov, _, heq⟩ := setWithExtrinsic_shape h s v ei
  rw [heq] at he
  exact setShape_mem h s ov e he

/-! ## Association-map lemmas -/

theorem lookupM_eq_none_of_not_mem {α : Type} (m : List (Bytes × α)) (k : Bytes)
    (hk : k ∉ m.map Prod.fst) : lookupM m k = none := by
  induction m with
  | nil => rfl
  | cons p rest ih =>
    simp only [List.map_cons, List.mem_cons] at hk
    push_neg at hk
    have h1 : p.1 ≠ k := Ne.symm hk.1
    obtain ⟨k', v⟩ := p
    simp only [lookupM]
    rw [if_neg h1]
    exact ih hk.2

theorem lookupM_updMap_self {α : Type} (m : List (Bytes × α)) (k : Bytes) (d : α)
    (f : α → α) :
    lookupM (updMap m k d f) k = some (f ((lookupM m k).getD d)) := by
  induction m with
  | nil => simp [updMap, lookupM]
  | cons p rest ih =>
    obtain ⟨k', v⟩ := p
    by_cases hk : k' = k
    · simp [updMap, lookupM, hk]
    · simp [updMap, lookupM, hk, ih]

theorem lookupM_updMap_other {α : Type} (m : List (Bytes × α)) (k k2 : Bytes) (d : α)
    (f : α → α) (hne : k2 ≠ k) :
    lookupM (updMap m k d f) k2 = lookupM m k2 := by
  induction m with
  | nil => simp [updMap, lookupM, Ne.symm hne]
  | cons p rest ih =>
    obtain ⟨k', v⟩ := p
    by_cases hk : k' = k
    · subst hk
      simp [updMap, lookupM, Ne.symm hne]
    · simp [updMap, lookupM, hk, ih]

theorem lookupM_updMap_isSome {α : Type} (m : List (Bytes × α)) (k k2 : Bytes) (d : α)
    (f : α → α) :
    (lookupM (updMap m k d f) k2).isSome = true ↔
      ((lookupM m k2).isSome = true ∨ k2 = k) := by
  by_cases hk : k2 = k
  · subst hk
    simp [lookupM_updMap_self]
  · simp [lookupM_updMap_other m k k2 d f hk, hk]

theorem lookupM_mapVals {α : Type} (f : Bytes → α → α) (m : List (Bytes × α)) (k : Bytes) :
    lookupM (mapVals f m) k = (lookupM m k).map (f k) := by
  induction m with
  | nil => rfl
  | cons p rest ih =>
    obtain ⟨k', v⟩ := p
    show lookupM ((k', f k' v) :: mapVals f rest) k =
      Option.map (f k) (lookupM ((k', v) :: rest) k)
    by_cases hk : k' = k
    · subst hk
      simp [lookupM]
    · simp only [lookupM, if_neg hk]
      exact ih

theorem lookupM_filterMapVals {α β : Type} (g : Bytes → α → Option β)
    (m : List (Bytes × α)) (k : Bytes) (hnd : (m.map Prod.fst).Nodup) :
    lookupM (m.filterMap (fun p => (g p.1 p.2).map (fun v => (p.1, v)))) k =
      (lookupM m k).bind (g k) := by
  induction m with
  | nil => rfl
  | cons p rest ih =>
    obtain ⟨k', v⟩ := p
    have hnd' : (rest.map Prod.fst).Nodup := (List.nodup_cons.mp hnd).2
    have hknotin : k' ∉ rest.map Prod.fst := (List.nodup_cons.mp hnd).1
    by_cases hk : k' = k
    · subst hk
      cases hg : g k' v with
      | some w => simp [List.filterMap_cons, hg, lookupM]
      | none =>
        have hnone : lookupM rest k' = none := lookupM_eq_none_of_not_mem rest k' hknotin
        have hlift :
            lookupM (rest.filterMap (fun p => (g p.1 p.2).map (fun v => (p.1, v)))) k' =
              none := by
          rw [ih hnd', hnone]
          rfl
        simp [List.filterMap_cons, hg, lookupM, hlift]
    · cases hg : g k' v with
      | some w => simp [List.filterMap_cons, hg, lookupM, hk, ih hnd']
      | none => simp [List.filterMap_cons, hg, lookupM, hk, ih hnd']

theorem mem_keys_updMap {α : Type} (m : List (Bytes × α)) (k : Bytes) (d : α) (f : α → α)
    (k2 : Bytes) :
    k2 ∈ (updMap m k d f).map Prod.fst ↔ (k2 ∈ m.map Prod.fst ∨ k2 = k) := by
  induction m with
  | nil => simp [updMap]
  | cons p rest ih =>
    obtain ⟨k', v⟩ := p
    by_cases hk : k' = k
    · subst hk
      have hu : updMap ((k', v) :: rest) k' d f = (k', f v) :: rest := by
        simp [updMap]
      rw [hu]
      simp only [List.map_cons, List.mem_cons]
      tauto
    · simp only [updMap, if_neg hk, List.map_cons, List.mem_cons, ih]
      tauto

theorem nodup_keys_updMap {α : Type} (m : List (Bytes × α)) (k : Bytes) (d : α) (f : α → α)
    (hnd : (m.map Prod.fst).Nodup) : ((updMap m k d f).map Prod.fst).Nodup := by
  induction m with
  | nil => simp [updMap]
  | cons p rest ih =>
    obtain ⟨k', v⟩ := p
    have hnd' : (rest.map Prod.fst).Nodup := (List.nodup_cons.mp hnd).2
    have hknotin : k' ∉ rest.map Prod.fst := (List.nodup_cons.mp hnd).1
    by_cases hk : k' = k
    · subst hk
      have hu : updMap ((k', v) :: rest) k' d f = (k', f v) :: rest := by
        simp [updMap]
      rw [hu, List.map_cons]
      simpa using hnd
    · simp only [updMap, if_neg hk, List.map_cons]
      rw [List.nodup_cons]
      constructor
      · intro hcon
        rcases (mem_keys_updMap rest k d f k').mp hcon with h | h
        · exact hknotin h
        · exact hk h
      · exact ih hnd'

theorem keys_mapVals {α : Type} (f : Bytes → α → α) (m : List (Bytes × α)) :
    (mapVals f m).map Prod.fst = m.map Prod.fst := by
  induction m with
  | nil => rfl
  | cons p rest ih =>
    show p.1 :: (mapVals f rest).map Prod.fst = p.1 :: rest.map Prod.fst
    rw [ih]

theorem keys_filterMapVals_sublist {α β : Type} (g : Bytes → α → Option β)
    (m : List (Bytes × α)) :
    ((m.filterMap (fun p => (g p.1 p.2).map (fun v => (p.1, v)))).map Prod.fst).Sublist
      (m.map Prod.fst) := by
  induction m with
  | nil => simp
  | cons p rest ih =>
    cases hg : g p.1 p.2 with
    | some w =>
      have hfm : (p :: rest).filterMap (fun p => (g p.1 p.2).map (fun v => (p.1, v))) =
          (p.1, w) :: rest.filterMap (fun p => (g p.1 p.2).map (fun v => (p.1, v))) := by
        simp [List.filterMap_cons, hg]
      rw [hfm, List.map_cons, List.map_cons]
      exact ih.cons₂ p.1
    | none =>
      have hfm : (p :: rest).filterMap (fun p => (g p.1 p.2).map (fun v => (p.1, v))) =
          rest.filterMap (fun p => (g p.1 p.2).map (fun v => (p.1, v))) := by
        simp [List.filterMap_cons, hg]
      rw [hfm, List.map_cons]
      exact ih.cons p.1

/-! ## Overlay-level read and gc lemmas -/

theorem lookupM_mem {α : Type} (m : List (Bytes × α)) (k : Bytes) (v : α)
    (hl : lookupM m k = some v) : (k, v) ∈ m := by
  induction m with
  | nil => simp [lookupM] at hl
  | cons p rest ih =>
    obtain ⟨k', v'⟩ := p
    by_cases hk : k' = k
    · subst hk
      have hh : lookupM ((k', v') :: rest) k' = some v' := by simp [lookupM]
      rw [hh] at hl
      injection hl with hv
      rw [hv]
      simp
    · simp only [lookupM, if_neg hk] at hl
      exact List.mem_cons.mpr (Or.inr (ih hl))

theorem gcm_none_of_all_dropped (s : States) (c : Nat) (h : History)
    (hall : ∀ e ∈ h, States.marker s e.index = TransactionState.Dropped) :
    History.get_committed h s c = none := by
  have := gcm_append_dropped s c h [] hall
  simpa using this

theorem filterMap_eq_self_of {α : Type} (f : α → Option α) :
    ∀ l : List α, (∀ a ∈ l, f a = some a) → l.filterMap f = l := by
  intro l h
  induction l with
  | nil => rfl
  | cons a rest ih =>
    have h1 := h a (by simp)
    have h2 := ih (fun a' ha' => h a' (by simp [ha']))
    simp [List.filterMap_cons, h1, h2]

theorem storage_eq_valueAt (oc : OverlayedChanges) (k : Bytes) :
    OverlayedChanges.storage oc k = valueAt oc.changes.states oc.changes.top k := by
  cases hl : lookupM oc.changes.top k with
  | none => simp [OverlayedChanges.storage, valueAt, hl, History.get]
  | some h =>
    cases hg : History.get h oc.changes.states with
    | none => simp [OverlayedChanges.storage, valueAt, hl, hg]
    | some ov => simp [OverlayedChanges.storage, valueAt, hl, hg]

theorem child_storage_eq_valueAt (oc : OverlayedChanges) (sk k : Bytes) :
    OverlayedChanges.child_storage oc sk k =
      valueAt oc.changes.states ((lookupM oc.changes.children sk).getD []) k := by
  cases hm : lookupM oc.changes.children sk with
  | none => simp [OverlayedChanges.child_storage, valueAt, hm, lookupM, History.get]
  | some m =>
    cases hl : lookupM m k with
    | none => simp [OverlayedChanges.child_storage, valueAt, hm, hl, History.get]
    | some h =>
      cases hg : History.get h oc.changes.states with
      | none => simp [OverlayedChanges.child_storage, valueAt, hm, hl, hg]
      | some ov => simp [OverlayedChanges.child_storage, valueAt, hm, hl, hg]

theorem valueAt_gcTop (s : States) (cm : Option Nat) (m : List (Bytes × History))
    (k : Bytes) (hnd : (m.map Prod.fst).Nodup) :
    valueAt s (m.filterMap (fun p => (gcHistoryOpt p.2 s cm).map (fun h' => (p.1, h')))) k =
      valueAt s m k := by
  unfold valueAt
  rw [lookupM_filterMapVals (fun _ h => gcHistoryOpt h s cm) m k hnd]
  cases hl : lookupM m k with
  | none => rfl
  | some h =>
    by_cases he : (gcHistory h s cm).isEmpty
    · have hgo : gcHistoryOpt h s cm = none := by simp [gcHistoryOpt, he]
      have hget : History.get h s = none :=
        (gcHistory_eq_nil_iff s cm h).mp (List.isEmpty_iff.mp he)
      simp [hgo, hget, History.get]
    · have hgo : gcHistoryOpt h s cm = some (gcHistory h s cm) := by simp [gcHistoryOpt, he]
      simp [hgo, gcHistory_get s cm h]

theorem committedValueAt_gcTop (s : States) (cm : Option Nat) (m : List (Bytes × History))
    (k : Bytes) (hnd : (m.map Prod.fst).Nodup)
    (hcm : cm = none ∨ cm = some s.commit) :
    committedValueAt s
      (m.filterMap (fun p => (gcHistoryOpt p.2 s cm).map (fun h' => (p.1, h')))) k =
      committedValueAt s m k := by
  unfold committedValueAt
  rw [lookupM_filterMapVals (fun _ h => gcHistoryOpt h s cm) m k hnd]
  cases hl : lookupM m k with
  | none => rfl
  | some h =>
    by_cases he : (gcHistory h s cm).isEmpty
    · have hgo : gcHistoryOpt h s cm = none := by simp [gcHistoryOpt, he]
      have hget : History.get h s = none :=
        (gcHistory_eq_nil_iff s cm h).mp (List.isEmpty_iff.mp he)
      have hgcm : History.get_committed h s s.commit = none :=
        gcm_none_of_all_dropped s s.commit h ((get_eq_none_iff s h).mp hget)
      simp [hgo, hgcm, History.get_committed]
    · have hgo : gcHistoryOpt h s cm = some (gcHistory h s cm) := by simp [gcHistoryOpt, he]
      simp [hgo, gcHistory_gcm s cm h hcm]

theorem storage_gc (oc : OverlayedChanges) (b : Bool) (k : Bytes)
    (hnd : (oc.changes.top.map Prod.fst).Nodup) :
    OverlayedChanges.storage (OverlayedChanges.gc oc b) k =
      OverlayedChanges.storage oc k := by
  rw [storage_eq_valueAt, storage_eq_valueAt]
  exact valueAt_gcTop oc.changes.states _ oc.changes.top k hnd

theorem valueAt_gcChildMap (s : States) (cm : Option Nat) (m : List (Bytes × History))
    (k : Bytes) (hnd : (m.map Prod.fst).Nodup) :
    valueAt s ((gcChildMap m s cm).getD []) k = valueAt s m k := by
  by_cases he : (m.filterMap
      (fun p => (gcHistoryOpt p.2 s cm).map (fun h' => (p.1, h')))).isEmpty
  · have hgc : gcChildMap m s cm = none := by simp [gcChildMap, he]
    rw [hgc]
    cases hlk : lookupM m k with
    | none => simp [valueAt, hlk, lookupM, History.get]
    | some h =>
      have hmm : (k, h) ∈ m := lookupM_mem _ _ _ hlk
      have hnone := (List.filterMap_eq_nil_iff.mp (List.isEmpty_iff.mp he)) (k, h) hmm
      have hgo : gcHistoryOpt h s cm = none := by
        cases hgo2 : gcHistoryOpt h s cm with
        | none => rfl
        | some h2 => rw [hgo2] at hnone; simp at hnone
      have hgn : gcHistory h s cm = [] := by
        by_cases hgE : (gcHistory h s cm).isEmpty
        · exact List.isEmpty_iff.mp hgE
        · simp [gcHistoryOpt, hgE] at hgo
      have hget : History.get h s = none := (gcHistory_eq_nil_iff s cm h).mp hgn
      simp [valueAt, hlk, hget, lookupM, History.get]
  · have hgc : gcChildMap m s cm = some (m.filterMap
        (fun p => (gcHistoryOpt p.2 s cm).map (fun h' => (p.1, h')))) := by
      simp [gcChildMap, he]
    rw [hgc]
    exact valueAt_gcTop s cm m k hnd

theorem child_storage_gc (oc : OverlayedChanges) (b : Bool) (sk k : Bytes)
    (hndc : (oc.changes.children.map Prod.fst).Nodup)
    (hndi : ∀ q ∈ oc.changes.children, (q.2.map Prod.fst).Nodup) :
    OverlayedChanges.child_storage (OverlayedChanges.gc oc b) sk k =
      OverlayedChanges.child_storage oc sk k := by
  rw [child_storage_eq_valueAt, child_storage_eq_valueAt]
  have hcl : lookupM (OverlayedChanges.gc oc b).changes.children sk =
      (lookupM oc.changes.children sk).bind
        (fun m => gcChildMap m oc.changes.states
          (if b then some (States.committed oc.changes.states) else none)) :=
    lookupM_filterMapVals
      (fun _ m => gcChildMap m oc.changes.states
        (if b then some (States.committed oc.changes.states) else none))
      oc.changes.children sk hndc
  rw [hcl]
  cases hm : lookupM oc.changes.children sk with
  | none => rfl
  | some m =>
    have hndm : (m.map Prod.fst).Nodup := hndi (sk, m) (lookupM_mem _ _ _ hm)
    exact valueAt_gcChildMap oc.changes.states _ m k hndm

theorem gcHistoryOpt_none_get (s : States) (cm : Option Nat) (h : History)
    (hgo : gcHistoryOpt h s cm = none) : History.get h s = none := by
  have hgn : gcHistory h s cm = [] := by
    by_cases hgE : (gcHistory h s cm).isEmpty
    · exact List.isEmpty_iff.mp hgE
    · simp [gcHistoryOpt, hgE] at hgo
  exact (gcHistory_eq_nil_iff s cm h).mp hgn

theorem gcHistoryOpt_none_of_get (s : States) (cm : Option Nat) (h : History)
    (hget : History.get h s = none) : gcHistoryOpt h s cm = none := by
  have hgn : gcHistory h s cm = [] := (gcHistory_eq_nil_iff s cm h).mpr hget
  simp [gcHistoryOpt, hgn]

theorem iterRender_gcTop (s : States) (cm : Option Nat) :
    ∀ m : List (Bytes × History),
      (m.filterMap (fun p => (gcHistoryOpt p.2 s cm).map (fun h' => (p.1, h')))).filterMap
        (fun p => (History.get p.2 s).map (fun ov => (p.1, ov.value))) =
      m.filterMap (fun p => (History.get p.2 s).map (fun ov => (p.1, ov.value))) := by
  intro m
  induction m with
  | nil => rfl
  | cons p rest ih =>
    by_cases he : (gcHistory p.2 s cm).isEmpty
    · have hgo : gcHistoryOpt p.2 s cm = none := by simp [gcHistoryOpt, he]
      have hget : History.get p.2 s = none :=
        (gcHistory_eq_nil_iff s cm p.2).mp (List.isEmpty_iff.mp he)
      simp [List.filterMap_cons, hgo, hget, ih]
    · have hgo : gcHistoryOpt p.2 s cm = some (gcHistory p.2 s cm) := by
        simp [gcHistoryOpt, he]
      have hget := gcHistory_get s cm p.2
      simp [List.filterMap_cons, hgo, hget, ih]

theorem render_gcChildMap (s : States) (cm : Option Nat) (m : List (Bytes × History)) :
    ((gcChildMap m s cm).getD []).filterMap
      (fun p => (History.get p.2 s).map (fun ov => (p.1, ov.value))) =
    m.filterMap (fun p => (History.get p.2 s).map (fun ov => (p.1, ov.value))) := by
  by_cases he : (m.filterMap
      (fun p => (gcHistoryOpt p.2 s cm).map (fun h' => (p.1, h')))).isEmpty
  · have hgc : gcChildMap m s cm = none := by simp [gcChildMap, he]
    rw [hgc]
    simp only [Option.getD_none, List.filterMap_nil]
    refine (List.filterMap_eq_nil_iff.mpr ?_).symm
    intro p hp
    have hnone := (List.filterMap_eq_nil_iff.mp (List.isEmpty_iff.mp he)) p hp
    have hgo : gcHistoryOpt p.2 s cm = none := by
      cases hgo2 : gcHistoryOpt p.2 s cm with
      | none => rfl
      | some h2 => rw [hgo2] at hnone; simp at hnone
    simp [gcHistoryOpt_none_get s cm p.2 hgo]
  · have hgc : gcChildMap m s cm = some (m.filterMap
        (fun p => (gcHistoryOpt p.2 s cm).map (fun h' => (p.1, h')))) := by
      simp [gcChildMap, he]
    rw [hgc]
    exact iterRender_gcTop s cm m

theorem iter_values_gc (cs : OverlayedChangeSet) (b : Bool) (sko : Option Bytes)
    (hnd : (cs.children.map Prod.fst).Nodup) :
    OverlayedChangeSet.iter_values (OverlayedChangeSet.gc cs b) sko =
      OverlayedChangeSet.iter_values cs sko := by
  cases sko with
  | none => exact iterRender_gcTop cs.states _ cs.top
  | some sk =>
    show ((lookupM (OverlayedChangeSet.gc cs b).children sk).getD []).filterMap _ =
      ((lookupM cs.children sk).getD []).filterMap _
    have hcl : lookupM (OverlayedChangeSet.gc cs b).children sk =
        (lookupM cs.children sk).bind
          (fun m => gcChildMap m cs.states
            (if b then some (States.committed cs.states) else none)) :=
      lookupM_filterMapVals
        (fun _ m => gcChildMap m cs.states
          (if b then some (States.committed cs.states) else none))
        cs.children sk hnd
    rw [hcl]
    cases hm : lookupM cs.children sk with
    | none => rfl
    | some m => exact render_gcChildMap cs.states _ m

theorem children_iter_gc_aux (s : States) (cm : Option Nat) :
    ∀ children : List (Bytes × List (Bytes × History)),
      (children.filterMap
        (fun q => (gcChildMap q.2 s cm).map (fun m' => (q.1, m')))).map
        (fun q => (q.1, q.2.filterMap
          (fun p => (History.get p.2 s).map (fun ov => (p.1, ov.value))))) =
      (children.map (fun q => (q.1, q.2.filterMap
        (fun p => (History.get p.2 s).map (fun ov => (p.1, ov.value)))))).filter
        (fun q => !q.2.isEmpty) := by
  intro children
  induction children with
  | nil => rfl
  | cons q rest ih =>
    by_cases he : (q.2.filterMap
        (fun p => (gcHistoryOpt p.2 s cm).map (fun h' => (p.1, h')))).isEmpty
    · have hgc : gcChildMap q.2 s cm = none := by simp [gcChildMap, he]
      have hrender : q.2.filterMap
          (fun p => (History.get p.2 s).map (fun ov => (p.1, ov.value))) = [] := by
        rw [List.filterMap_eq_nil_iff]
        intro p hp
        have hnone := (List.filterMap_eq_nil_iff.mp (List.isEmpty_iff.mp he)) p hp
        have hgo : gcHistoryOpt p.2 s cm = none := by
          cases hgo2 : gcHistoryOpt p.2 s cm with
          | none => rfl
          | some h2 => rw [hgo2] at hnone; simp at hnone
        simp [gcHistoryOpt_none_get s cm p.2 hgo]
      simp [List.filterMap_cons, hgc, List.filter_cons, hrender, ih]
    · have hgc : gcChildMap q.2 s cm = some (q.2.filterMap
          (fun p => (gcHistoryOpt p.2 s cm).map (fun h' => (p.1, h')))) := by
        simp [gcChildMap, he]
      have hrender := iterRender_gcTop s cm q.2
      have hne : ¬ (q.2.filterMap
          (fun p => (History.get p.2 s).map (fun ov => (p.1, ov.value)))).isEmpty := by
        intro hcon
        apply he
        rw [List.isEmpty_iff] at hcon ⊢
        rw [List.filterMap_eq_nil_iff] at hcon ⊢
        intro p hp
        have hget : History.get p.2 s = none := by
          have := hcon p hp
          cases hg2 : History.get p.2 s with
          | none => rfl
          | some ov => rw [hg2] at this; simp at this
        simp [gcHistoryOpt_none_of_get s cm p.2 hget]
      simp [List.filterMap_cons, hgc, List.filter_cons, hne, hrender, ih]

theorem children_iter_gc (cs : OverlayedChangeSet) (b : Bool) :
    OverlayedChangeSet.children_iter (OverlayedChangeSet.gc cs b) =
      (OverlayedChangeSet.children_iter cs).filter (fun q => !q.2.isEmpty) := by
  exact children_iter_gc_aux cs.states _ cs.children

theorem gcHistoryOpt_idem (s : States) (cm : Option Nat) (h h' : History)
    (hgo : gcHistoryOpt h s cm = some h') : gcHistoryOpt h' s cm = some h' := by
  have hEm : ¬ (gcHistory h s cm).isEmpty := by
    intro hcon
    simp [gcHistoryOpt, hcon] at hgo
  have hh' : h' = gcHistory h s cm := by
    simp [gcHistoryOpt, hEm] at hgo
    exact hgo.symm
  have hidem := gcHistory_idem s cm h
  rw [hh']
  simp [gcHistoryOpt, hidem, hEm]

theorem gcMapVals_idem (s : States) (cm : Option Nat) (m : List (Bytes × History)) :
    ((m.filterMap (fun p => (gcHistoryOpt p.2 s cm).map (fun h' => (p.1, h')))).filterMap
      (fun p => (gcHistoryOpt p.2 s cm).map (fun h' => (p.1, h')))) =
    m.filterMap (fun p => (gcHistoryOpt p.2 s cm).map (fun h' => (p.1, h'))) := by
  apply filterMap_eq_self_of
  intro p hp
  obtain ⟨q, hq, hfq⟩ := List.mem_filterMap.mp hp
  cases hgo : gcHistoryOpt q.2 s cm with
  | none => rw [hgo] at hfq; simp at hfq
  | some h' =>
    rw [hgo] at hfq
    simp at hfq
    have hopt := gcHistoryOpt_idem s cm q.2 h' hgo
    rw [← hfq]
    simp [hopt]

theorem gcChildMap_idem (s : States) (cm : Option Nat) (m m' : List (Bytes × History))
    (hgc : gcChildMap m s cm = some m') : gcChildMap m' s cm = some m' := by
  have hEm : ¬ (m.filterMap
      (fun p => (gcHistoryOpt p.2 s cm).map (fun h' => (p.1, h')))).isEmpty := by
    intro hcon
    simp [gcChildMap, hcon] at hgc
  have hm' : m' = m.filterMap
      (fun p => (gcHistoryOpt p.2 s cm).map (fun h' => (p.1, h'))) := by
    simp [gcChildMap, hEm] at hgc
    exact hgc.symm
  rw [hm']
  unfold gcChildMap
  rw [gcMapVals_idem]
  simp [hEm]

theorem gc_idem_cs (cs : OverlayedChangeSet) (b : Bool) :
    OverlayedChangeSet.gc (OverlayedChangeSet.gc cs b) b = OverlayedChangeSet.gc cs b := by
  obtain ⟨s, top, children⟩ := cs
  simp only [OverlayedChangeSet.gc]
  congr 1
  · exact gcMapVals_idem s _ top
  · apply filterMap_eq_self_of
    intro q hq
    obtain ⟨q0, hq0, hfq⟩ := List.mem_filterMap.mp hq
    cases hgo : gcChildMap q0.2 s _ with
    | none => rw [hgo] at hfq; simp at hfq
    | some m' =>
      rw [hgo] at hfq
      simp at hfq
      have hopt := gcChildMap_idem s _ q0.2 m' hgo
      rw [← hfq]
      simp [hopt]

theorem gc_idem (oc : OverlayedChanges) (b : Bool) :
    OverlayedChanges.gc (OverlayedChanges.gc oc b) b = OverlayedChanges.gc oc b := by
  show { oc with changes := OverlayedChangeSet.gc (OverlayedChangeSet.gc oc.changes b) b } =
    { oc with changes := OverlayedChangeSet.gc oc.changes b }
  rw [gc_idem_cs]

theorem History_set_head (h : History) (s : States) (ov : OverlayedValue) :
    (History.set h s ov).head? = some ⟨ov, States.len s - 1⟩ := by
  cases hp : History.prune h s with
  | nil => simp [History.set, hp]
  | cons e rest =>
    by_cases hidx : e.index = States.len s - 1 <;> simp [History.set, hp, hidx]

theorem updMap_append {α : Type} (m : List (Bytes × α)) (k : Bytes) (d : α) (f : α → α)
    (habs : lookupM m k = none) : updMap m k d f = m ++ [(k, f d)] := by
  induction m with
  | nil => rfl
  | cons p rest ih =>
    obtain ⟨k', v⟩ := p
    by_cases hk : k' = k
    · subst hk
      simp [lookupM] at habs
    · simp only [lookupM, if_neg hk] at habs
      simp [updMap, hk, ih habs]

/-! ## Claim theorems -/

/-- C6: `set_changes_trie_config` installs the configuration and returns
`true` when none is installed; re-installing the identical configuration
returns `true` and leaves the overlay as it was (idempotent); installing a
differing configuration returns `false` and mutates nothing. -/
theorem c6_config_immutability (oc : OverlayedChanges)
    (config config' : ChangesTrieConfig) :
    (oc.changes_trie_config = none →
      OverlayedChanges.set_changes_trie_config oc config =
        (true, { oc with changes_trie_config := some config })) ∧
    (oc.changes_trie_config = some config →
      OverlayedChanges.set_changes_trie_config oc config = (true, oc)) ∧
    (oc.changes_trie_config = some config' → config' ≠ config →
      OverlayedChanges.set_changes_trie_config oc config = (false, oc)) := by
  refine ⟨?_, ?_, ?_⟩
  · intro hn
    simp [OverlayedChanges.set_changes_trie_config, hn]
  · intro hs
    obtain ⟨changes, cfg, op, ne⟩ := oc
    simp only at hs
    subst hs
    simp [OverlayedChanges.set_changes_trie_config]
  · intro hs hne
    simp [OverlayedChanges.set_changes_trie_config, hs, hne]

/-- C6 witness: a differing configuration is rejected without mutation at a
concrete overlay holding configuration (4,1). -/
theorem c6_config_immutability_witness :
    OverlayedChanges.set_changes_trie_config
        { OverlayedChanges.empty with changes_trie_config := some ⟨4, 1⟩ } ⟨2, 1⟩ =
      (false, { OverlayedChanges.empty with changes_trie_config := some ⟨4, 1⟩ }) ∧
    OverlayedChanges.set_changes_trie_config OverlayedChanges.empty ⟨4, 1⟩ =
      (true, { OverlayedChanges.empty with changes_trie_config := some ⟨4, 1⟩ }) :=
  ⟨(c6_config_immutability _ ⟨2, 1⟩ ⟨4, 1⟩).2.2 rfl (by decide),
   (c6_config_immutability OverlayedChanges.empty ⟨4, 1⟩ ⟨4, 1⟩).1 rfl⟩

/-- C7: with no changes-trie configuration, `extrinsic_index` is `none` and a
write leaves the entry's extrinsic-set field unpopulated; with a configuration
installed, the index is decoded from the overlay value of the well-known key,
and both "key resolves to no value" (outer or inner `none`) and decode
failure yield the `NO_EXTRINSIC_INDEX` sentinel rather than an error. -/
theorem c7_extrinsic_index_derivation (conf : GcConf) (oc : OverlayedChanges)
    (k : Bytes) (v : Option Bytes) :
    (oc.changes_trie_config = none →
      OverlayedChanges.extrinsic_index oc = none ∧
      ((lookupM (OverlayedChanges.set_storage conf oc k v).changes.top k).getD
        []).head? = some ⟨⟨v, none⟩, States.len oc.changes.states - 1⟩) ∧
    (∀ cfg, oc.changes_trie_config = some cfg →
      (OverlayedChanges.storage oc EXTRINSIC_INDEX = none →
        OverlayedChanges.extrinsic_index oc = some NO_EXTRINSIC_INDEX) ∧
      (OverlayedChanges.storage oc EXTRINSIC_INDEX = some none →
        OverlayedChanges.extrinsic_index oc = some NO_EXTRINSIC_INDEX) ∧
      (∀ bs, OverlayedChanges.storage oc EXTRINSIC_INDEX = some (some bs) →
        decodeU32 bs = none →
        OverlayedChanges.extrinsic_index oc = some NO_EXTRINSIC_INDEX) ∧
      (∀ bs i, OverlayedChanges.storage oc EXTRINSIC_INDEX = some (some bs) →
        decodeU32 bs = some i →
        OverlayedChanges.extrinsic_index oc = some i)) := by
  constructor
  · intro hn
    have hei : OverlayedChanges.extrinsic_index oc = none := by
      simp [OverlayedChanges.extrinsic_index, hn]
    refine ⟨hei, ?_⟩
    show ((lookupM (updMap oc.changes.top k []
      (fun h => setWithExtrinsic h oc.changes.states v
        (OverlayedChanges.extrinsic_index oc))) k).getD []).head? = _
    rw [lookupM_updMap_self, hei]
    exact History_set_head _ oc.changes.states ⟨v, none⟩
  · intro cfg hs
    refine ⟨?_, ?_, ?_, ?_⟩
    · intro hst; simp [OverlayedChanges.extrinsic_index, hs, hst]
    · intro hst; simp [OverlayedChanges.extrinsic_index, hs, hst]
    · intro bs hst hdec; simp [OverlayedChanges.extrinsic_index, hs, hst, hdec]
    · intro bs i hst hdec; simp [OverlayedChanges.extrinsic_index, hs, hst, hdec]

/-- C7 witness: concrete instances of the no-configuration branch and of the
sentinel fallback with a configuration installed but the marker key absent. -/
theorem c7_extrinsic_index_witness :
    (OverlayedChanges.extrinsic_index OverlayedChanges.empty = none ∧
      ((lookupM (OverlayedChanges.set_storage confBig OverlayedChanges.empty [1]
        (some [2])).changes.top [1]).getD []).head? =
        some ⟨⟨some [2], none⟩, States.len OverlayedChanges.empty.changes.states - 1⟩) ∧
    OverlayedChanges.extrinsic_index
        { OverlayedChanges.empty with changes_trie_config := some ⟨4, 1⟩ } =
      some NO_EXTRINSIC_INDEX :=
  ⟨(c7_extrinsic_index_derivation confBig OverlayedChanges.empty [1] (some [2])).1 rfl,
   ((c7_extrinsic_index_derivation confBig
      { OverlayedChanges.empty with changes_trie_config := some ⟨4, 1⟩ } [1]
      (some [2])).2 ⟨4, 1⟩ rfl).1 rfl⟩

/-- C8: `clear_prefix` applies a tombstone write (value `none`, current
extrinsic index) to exactly the keys already present in the top map whose key
starts with the given bytes: present matching keys get the tombstone write,
non-matching keys keep their history unchanged, and no new key is
materialized; `clear_child_prefix` does the same inside one child namespace,
creating no namespace and leaving other namespaces untouched. -/
theorem c8_clear_prefix_semantics (oc : OverlayedChanges) (p k sk sk2 : Bytes) :
    ((lookupM (OverlayedChanges.clearPrefix oc p).changes.top k).isSome =
      (lookupM oc.changes.top k).isSome) ∧
    (p.isPrefixOf k = false →
      lookupM (OverlayedChanges.clearPrefix oc p).changes.top k =
        lookupM oc.changes.top k) ∧
    (∀ h, lookupM oc.changes.top k = some h → p.isPrefixOf k = true →
      lookupM (OverlayedChanges.clearPrefix oc p).changes.top k =
        some (setWithExtrinsic h oc.changes.states none
          (OverlayedChanges.extrinsic_index oc))) ∧
    ((lookupM (OverlayedChanges.clearChildPrefix oc sk p).changes.children sk).isSome =
      (lookupM oc.changes.children sk).isSome) ∧
    (sk2 ≠ sk →
      lookupM (OverlayedChanges.clearChildPrefix oc sk p).changes.children sk2 =
        lookupM oc.changes.children sk2) ∧
    (∀ m, lookupM oc.changes.children sk = some m →
      ((lookupM ((lookupM (OverlayedChanges.clearChildPrefix oc sk p).changes.children
          sk).getD []) k).isSome = (lookupM m k).isSome) ∧
      (p.isPrefixOf k = false →
        lookupM ((lookupM (OverlayedChanges.clearChildPrefix oc sk p).changes.children
          sk).getD []) k = lookupM m k) ∧
      (∀ h, lookupM m k = some h → p.isPrefixOf k = true →
        lookupM ((lookupM (OverlayedChanges.clearChildPrefix oc sk p).changes.children
          sk).getD []) k =
          some (setWithExtrinsic h oc.changes.states none
            (OverlayedChanges.extrinsic_index oc)))) := by
  have htopl : lookupM (OverlayedChanges.clearPrefix oc p).changes.top k =
      (lookupM oc.changes.top k).map (fun h =>
        if p.isPrefixOf k then setWithExtrinsic h oc.changes.states none
          (OverlayedChanges.extrinsic_index oc) else h) :=
    lookupM_mapVals (fun k2 h => if p.isPrefixOf k2 then setWithExtrinsic h
      oc.changes.states none (OverlayedChanges.extrinsic_index oc) else h)
      oc.changes.top k
  refine ⟨?_, ?_, ?_, ?_, ?_, ?_⟩
  · rw [htopl]
    cases lookupM oc.changes.top k <;> rfl
  · intro hnp
    rw [htopl]
    cases lookupM oc.changes.top k with
    | none => rfl
    | some h => simp [hnp]
  · intro h hl hp
    rw [htopl, hl]
    simp [hp]
  · cases hm : lookupM oc.changes.children sk with
    | none => simp [OverlayedChanges.clearChildPrefix, hm]
    | some m =>
      simp only [OverlayedChanges.clearChildPrefix, hm]
      rw [lookupM_updMap_self, hm]
      rfl
  · intro hne
    cases hm : lookupM oc.changes.children sk with
    | none => simp [OverlayedChanges.clearChildPrefix, hm]
    | some m =>
      simp only [OverlayedChanges.clearChildPrefix, hm]
      exact lookupM_updMap_other _ _ _ _ _ hne
  · intro m hm
    have hinner : (lookupM (OverlayedChanges.clearChildPrefix oc sk p).changes.children
        sk).getD [] =
        mapVals (fun k2 h => if p.isPrefixOf k2 then setWithExtrinsic h oc.changes.states
          none (OverlayedChanges.extrinsic_index oc) else h) m := by
      simp only [OverlayedChanges.clearChildPrefix, hm]
      rw [lookupM_updMap_self, hm]
      rfl
    rw [hinner]
    have hil : lookupM (mapVals (fun k2 h => if p.isPrefixOf k2 then
        setWithExtrinsic h oc.changes.states none
          (OverlayedChanges.extrinsic_index oc) else h) m) k =
        (lookupM m k).map (fun h => if p.isPrefixOf k then setWithExtrinsic h
          oc.changes.states none (OverlayedChanges.extrinsic_index oc) else h) :=
      lookupM_mapVals (fun k2 h => if p.isPrefixOf k2 then setWithExtrinsic h
        oc.changes.states none (OverlayedChanges.extrinsic_index oc) else h) m k
    refine ⟨?_, ?_, ?_⟩
    · rw [hil]; cases lookupM m k <;> rfl
    · intro hnp
      rw [hil]
      cases lookupM m k with
      | none => rfl
      | some h => simp [hnp]
    · intro h hl hp
      rw [hil, hl]
      simp [hp]

/-- C8 witness: concrete prefix clears at an overlay holding keys (1,2) and
(3,4) in the top map and key (1,2) in child namespace (7). -/
theorem c8_clear_prefix_witness :
    (lookupM (OverlayedChanges.clearPrefix
        (OverlayedChanges.set_storage confBig OverlayedChanges.empty [1, 2]
          (some [5])) [1]).changes.top [1, 2] =
      some (setWithExtrinsic
        ((lookupM (OverlayedChanges.set_storage confBig OverlayedChanges.empty [1, 2]
          (some [5])).changes.top [1, 2]).getD [])
        (OverlayedChanges.set_storage confBig OverlayedChanges.empty [1, 2]
          (some [5])).changes.states none
        (OverlayedChanges.extrinsic_index
          (OverlayedChanges.set_storage confBig OverlayedChanges.empty [1, 2]
            (some [5]))))) ∧
    (lookupM (OverlayedChanges.clearPrefix
        (OverlayedChanges.set_storage confBig OverlayedChanges.empty [1, 2]
          (some [5])) [3]).changes.top [1, 2] =
      lookupM (OverlayedChanges.set_storage confBig OverlayedChanges.empty [1, 2]
        (some [5])).changes.top [1, 2]) :=
  ⟨(c8_clear_prefix_semantics _ [1] [1, 2] [] []).2.2.1 _ (by decide) (by decide),
   (c8_clear_prefix_semantics _ [3] [1, 2] [] []).2.1 (by decide)⟩

/-- C10: clearing a child storage whose namespace does not exist creates the
empty namespace (observable through `children_iter`, which then yields the
storage key with no entries) and does not change the operation counter, while
`clear_child_prefix` on an absent namespace leaves the whole overlay
unchanged, operation counter included. -/
theorem c10_clear_child_frame (oc : OverlayedChanges) (sk p : Bytes)
    (habs : lookupM oc.changes.children sk = none) :
    (OverlayedChanges.clear_child_storage oc sk).changes.children =
      oc.changes.children ++ [(sk, [])] ∧
    (OverlayedChanges.clear_child_storage oc sk).operation_from_last_gc =
      oc.operation_from_last_gc ∧
    OverlayedChangeSet.children_iter (OverlayedChanges.clear_child_storage oc sk).changes =
      OverlayedChangeSet.children_iter oc.changes ++ [(sk, [])] ∧
    OverlayedChanges.clearChildPrefix oc sk p = oc := by
  have hch : (OverlayedChanges.clear_child_storage oc sk).changes.children =
      oc.changes.children ++ [(sk, [])] := by
    show updMap oc.changes.children sk []
        (mapVals (fun _ h => setWithExtrinsic h oc.changes.states none
          (OverlayedChanges.extrinsic_index oc))) = _
    rw [updMap_append _ _ _ _ habs]
    rfl
  refine ⟨hch, ?_, ?_, ?_⟩
  · show oc.operation_from_last_gc +
      ((lookupM oc.changes.children sk).getD []).length = oc.operation_from_last_gc
    rw [habs]
    rfl
  · show ((OverlayedChanges.clear_child_storage oc sk).changes.children).map _ =
      (oc.changes.children.map _) ++ _
    rw [hch, List.map_append]
    rfl
  · simp [OverlayedChanges.clearChildPrefix, habs]

/-- C10 witness: the frame effects at the empty overlay and namespace (7). -/
theorem c10_clear_child_frame_witness :
    (OverlayedChanges.clear_child_storage OverlayedChanges.empty [7]).changes.children =
      OverlayedChanges.empty.changes.children ++ [([7], [])] ∧
    (OverlayedChanges.clear_child_storage OverlayedChanges.empty
      [7]).operation_from_last_gc = OverlayedChanges.empty.operation_from_last_gc ∧
    OverlayedChangeSet.children_iter
        (OverlayedChanges.clear_child_storage OverlayedChanges.empty [7]).changes =
      OverlayedChangeSet.children_iter OverlayedChanges.empty.changes ++ [([7], [])] ∧
    OverlayedChanges.clearChildPrefix OverlayedChanges.empty [7] [1] =
      OverlayedChanges.empty :=
  c10_clear_child_frame OverlayedChanges.empty [7] [1] rfl

/-- C3 counterexample: after one write and a transaction discard, the key's
history entry still exists in the top map, yet `storage` returns the outer
`none` ("unknown"), not `some none` or `some (some _)`. -/
theorem c3_counterexample :
    (lookupM cexC3state.changes.top [1]).isSome = true ∧
    OverlayedChanges.storage cexC3state [1] = none := by
  constructor
  · decide
  · decide

/-- C3 (amended): `storage` (and `child_storage`) returns `some` exactly when
the key has a *resolvable* history entry — one lying in a non-`Dropped` layer;
outer `none` is returned both when no entry exists in the map and when every
entry of the key's history lies in a dropped layer. -/
theorem c3_unknown_only_when_no_visible_entry (oc : OverlayedChanges) (sk k : Bytes) :
    ((OverlayedChanges.storage oc k).isSome = true ↔
      (∃ h, lookupM oc.changes.top k = some h ∧
        ∃ e ∈ h, States.marker oc.changes.states e.index ≠ TransactionState.Dropped)) ∧
    ((OverlayedChanges.child_storage oc sk k).isSome = true ↔
      (∃ m h, lookupM oc.changes.children sk = some m ∧ lookupM m k = some h ∧
        ∃ e ∈ h, States.marker oc.changes.states e.index ≠ TransactionState.Dropped)) := by
  constructor
  · cases hl : lookupM oc.changes.top k with
    | none =>
      simp only [OverlayedChanges.storage, hl]
      simp
    | some h =>
      have hst : OverlayedChanges.storage oc k =
          (History.get h oc.changes.states).map (fun ov => ov.value) := by
        cases hg : History.get h oc.changes.states <;>
          simp [OverlayedChanges.storage, hl, hg]
      rw [hst]
      constructor
      · intro hs
        have : (History.get h oc.changes.states).isSome = true := by
          cases hg : History.get h oc.changes.states with
          | none => rw [hg] at hs; simp at hs
          | some ov => rfl
        exact ⟨h, rfl, (get_isSome_iff oc.changes.states h).mp this⟩
      · intro ⟨h2, hh2, hex⟩
        injection hh2 with hh2
        subst hh2
        have := (get_isSome_iff oc.changes.states h).mpr hex
        cases hg : History.get h oc.changes.states with
        | none => rw [hg] at this; simp at this
        | some ov => simp [hg]
  · cases hm : lookupM oc.changes.children sk with
    | none =>
      simp only [OverlayedChanges.child_storage, hm]
      simp
    | some m =>
      cases hl : lookupM m k with
      | none =>
        simp only [OverlayedChanges.child_storage, hm, hl]
        simp only [Option.isSome_none, Bool.false_eq_true, false_iff]
        intro ⟨m2, h2, hm2, hl2, _⟩
        injection hm2 with hm2
        subst hm2
        rw [hl] at hl2
        exact Option.noConfusion hl2
      | some h =>
        have hst : OverlayedChanges.child_storage oc sk k =
            (History.get h oc.changes.states).map (fun ov => ov.value) := by
          cases hg : History.get h oc.changes.states <;>
            simp [OverlayedChanges.child_storage, hm, hl, hg]
        rw [hst]
        constructor
        · intro hs
          have : (History.get h oc.changes.states).isSome = true := by
            cases hg : History.get h oc.changes.states with
            | none => rw [hg] at hs; simp at hs
            | some ov => rfl
          exact ⟨m, h, rfl, hl, (get_isSome_iff oc.changes.states h).mp this⟩
        · intro ⟨m2, h2, hm2, hl2, hex⟩
          injection hm2 with hm2
          subst hm2
          rw [hl] at hl2
          injection hl2 with hl2
          subst hl2
          have := (get_isSome_iff oc.changes.states h).mpr hex
          cases hg : History.get h oc.changes.states with
          | none => rw [hg] at this; simp at this
          | some ov => simp [hg]

/-- C4 counterexample: writing key (1) under extrinsic 0, committing the
prospective changes, then writing (1) again under extrinsic 4 appends a new
history entry whose extrinsic set is {0, 4} — the previous entry's set *is*
copied into the new entry, not the claimed fresh singleton {4}. -/
theorem c4_counterexample :
    (lookupM cexC4state.changes.top [1]).getD [] =
      [⟨⟨some [8], some [0, 4]⟩, 1⟩, ⟨⟨some [2], some [0]⟩, 0⟩] ∧
    ((lookupM cexC4state.changes.top [1]).getD []).head?.map
      (fun e => e.value.extrinsics) ≠ some (some [4]) := by
  constructor
  · decide
  · decide

/-- C4 (amended): a write under extrinsic index `e` to a key whose current
surviving entry belongs to the still-open topmost layer overwrites it in place
and inserts `e` into the existing set; when a new entry is appended for a new
layer, its set is the previous entry's set with `e` inserted (the old set is
cloned into the new entry); with no surviving entry the set starts as the
singleton {e}. -/
theorem c4_extrinsic_set_on_write (conf : GcConf) (oc : OverlayedChanges) (k : Bytes)
    (v : Option Bytes) (e : Nat)
    (hei : OverlayedChanges.extrinsic_index oc = some e) :
    (History.prune ((lookupM oc.changes.top k).getD []) oc.changes.states = [] →
      (lookupM (OverlayedChanges.set_storage conf oc k v).changes.top k).getD [] =
        [⟨⟨v, some (insertSorted e [])⟩, States.len oc.changes.states - 1⟩]) ∧
    (∀ cur rest,
      History.prune ((lookupM oc.changes.top k).getD []) oc.changes.states =
        cur :: rest →
      cur.index = States.len oc.changes.states - 1 →
      (lookupM (OverlayedChanges.set_storage conf oc k v).changes.top k).getD [] =
        ⟨⟨v, some (insertSorted e (cur.value.extrinsics.getD []))⟩,
          States.len oc.changes.states - 1⟩ :: rest) ∧
    (∀ cur rest,
      History.prune ((lookupM oc.changes.top k).getD []) oc.changes.states =
        cur :: rest →
      cur.index ≠ States.len oc.changes.states - 1 →
      (lookupM (OverlayedChanges.set_storage conf oc k v).changes.top k).getD [] =
        ⟨⟨v, some (insertSorted e (cur.value.extrinsics.getD []))⟩,
          States.len oc.changes.states - 1⟩ :: cur :: rest) := by
  have hl : (lookupM (OverlayedChanges.set_storage conf oc k v).changes.top k).getD [] =
      setWithExtrinsicInner ((lookupM oc.changes.top k).getD []) oc.changes.states v e := by
    show ((lookupM (updMap oc.changes.top k []
      (fun h => setWithExtrinsic h oc.changes.states v
        (OverlayedChanges.extrinsic_index oc))) k).getD []) = _
    rw [lookupM_updMap_self, hei]
    rfl
  refine ⟨?_, ?_, ?_⟩
  · intro hp
    rw [hl]
    simp [setWithExtrinsicInner, hp]
  · intro cur rest hp hidx
    rw [hl]
    simp [setWithExtrinsicInner, hp, hidx]
  · intro cur rest hp hidx
    rw [hl]
    simp [setWithExtrinsicInner, hp, hidx]

/-- C4 witness: the first write to a key under the sentinel index starts the
singleton extrinsic set. -/
theorem c4_extrinsic_set_witness :
    (lookupM (OverlayedChanges.set_storage confBig
        { OverlayedChanges.empty with changes_trie_config := some ⟨4, 1⟩ } [1]
        (some [2])).changes.top [1]).getD [] =
      [⟨⟨some [2], some (insertSorted NO_EXTRINSIC_INDEX [])⟩,
        States.len ({ OverlayedChanges.empty with
          changes_trie_config := some ⟨4, 1⟩ } : OverlayedChanges).changes.states - 1⟩] :=
  (c4_extrinsic_set_on_write confBig
    { OverlayedChanges.empty with changes_trie_config := some ⟨4, 1⟩ } [1]
    (some [2]) NO_EXTRINSIC_INDEX (by decide)).1 (by decide)

/-- C5: the §8 example scenario — writes to (1) and (3) under extrinsics 0, 1,
2 in one layer give the prospective view (1) with value (6) and set {0, 2} and
(3) with value (4) and set {1}; after `commit_prospective` and writes under
extrinsics 3 and 4, the committed view equals the pre-commit prospective view
and the prospective view shows (1) with set {0, 2, 4} and (3) with {1, 3}. -/
theorem c5_example_scenario :
    stripExtrinsicKey (OverlayedChangeSet.top_prospective scenarioPre.changes) =
      [([1], ⟨some [6], some [0, 2]⟩), ([3], ⟨some [4], some [1]⟩)] ∧
    stripExtrinsicKey (OverlayedChangeSet.top_committed scenarioPost.changes) =
      stripExtrinsicKey (OverlayedChangeSet.top_prospective scenarioPre.changes) ∧
    stripExtrinsicKey (OverlayedChangeSet.top_prospective scenarioPost.changes) =
      [([1], ⟨some [8], some [0, 2, 4]⟩), ([3], ⟨some [7], some [1, 3]⟩)] := by
  refine ⟨?_, ?_, ?_⟩
  · decide
  · decide
  · decide

/-- C9 counterexample: a garbage collection removes a child namespace whose
only history is dead, which changes the sequence of namespaces yielded by
`children_iter`: before the gc it yields namespace (7) with no entries, after
the gc it yields nothing. -/
theorem c9_counterexample :
    OverlayedChangeSet.children_iter cexC9state.changes = [([7], [])] ∧
    OverlayedChangeSet.children_iter
      ((OverlayedChanges.gc cexC9state false).changes) = [] := by
  constructor
  · decide
  · decide

/-- C9 (amended): for a well-formed overlay, `gc b` changes no `storage` or
`child_storage` read and no `iter_values` result; `children_iter` keeps
exactly the namespaces having at least one visible entry, with unchanged
contents (so only namespaces yielding no entries disappear); and a second
`gc b` with no intervening writes is a no-op. -/
theorem c9_gc_read_stability (oc : OverlayedChanges) (b : Bool) (k sk : Bytes)
    (sko : Option Bytes) (hwf : Wf oc) :
    OverlayedChanges.storage (OverlayedChanges.gc oc b) k =
      OverlayedChanges.storage oc k ∧
    OverlayedChanges.child_storage (OverlayedChanges.gc oc b) sk k =
      OverlayedChanges.child_storage oc sk k ∧
    OverlayedChangeSet.iter_values (OverlayedChanges.gc oc b).changes sko =
      OverlayedChangeSet.iter_values oc.changes sko ∧
    OverlayedChangeSet.children_iter (OverlayedChanges.gc oc b).changes =
      (OverlayedChangeSet.children_iter oc.changes).filter (fun q => !q.2.isEmpty) ∧
    OverlayedChanges.gc (OverlayedChanges.gc oc b) b = OverlayedChanges.gc oc b := by
  obtain ⟨hc, hlast, hndt, hidx, hndc, hch⟩ := hwf
  exact ⟨storage_gc oc b k hndt,
    child_storage_gc oc b sk k hndc (fun q hq => (hch q hq).1),
    iter_values_gc oc.changes b sko hndc,
    children_iter_gc oc.changes b,
    gc_idem oc b⟩

/-- C9 witness: gc stability at a concrete reachable overlay. -/
theorem c9_gc_read_stability_witness :
    OverlayedChanges.storage (OverlayedChanges.gc cexC9state false) [1] =
      OverlayedChanges.storage cexC9state [1] ∧
    OverlayedChanges.gc (OverlayedChanges.gc cexC9state false) false =
      OverlayedChanges.gc cexC9state false :=
  ⟨(c9_gc_read_stability cexC9state false [1] [7] none (by decide)).1,
   (c9_gc_read_stability cexC9state false [1] [7] none (by decide)).2.2.2.2⟩

/-! ## Ledger boundary-operation lemmas -/

theorem marker_markAppend_lt (f : TransactionState → TransactionState)
    (m : TransactionState) (t c' : Nat) (s : States) (i : Nat)
    (hti : i < t) (hlen : i < States.len s) :
    States.marker ⟨markFrom f t s.history ++ [m], c'⟩ i = States.marker s i := by
  show (markFrom f t s.history ++ [m]).getD i TransactionState.Dropped =
    s.history.getD i TransactionState.Dropped
  have hl : i < (markFrom f t s.history).length := by
    rw [markFrom_length]; exact hlen
  rw [getD_append_lt _ _ _ _ hl, markFrom_getD_lt f t s.history i _ hti]

theorem marker_markAppend_ge (f : TransactionState → TransactionState)
    (m : TransactionState) (t c' : Nat) (s : States) (i : Nat)
    (hti : t ≤ i) (hlen : i < States.len s) :
    States.marker ⟨markFrom f t s.history ++ [m], c'⟩ i = f (States.marker s i) := by
  show (markFrom f t s.history ++ [m]).getD i TransactionState.Dropped =
    f (s.history.getD i TransactionState.Dropped)
  have hl : i < (markFrom f t s.history).length := by
    rw [markFrom_length]; exact hlen
  rw [getD_append_lt _ _ _ _ hl, markFrom_getD_ge f t s.history i _ hti hlen]

theorem marker_append_lt (m : TransactionState) (c' : Nat) (s : States) (i : Nat)
    (hlen : i < States.len s) :
    States.marker ⟨s.history ++ [m], c'⟩ i = States.marker s i := by
  show (s.history ++ [m]).getD i TransactionState.Dropped =
    s.history.getD i TransactionState.Dropped
  exact getD_append_lt _ _ _ _ hlen

theorem marker_append_last (l : List TransactionState) (m : TransactionState) (c' : Nat) :
    States.marker ⟨l ++ [m], c'⟩ (States.len ⟨l ++ [m], c'⟩ - 1) = m := by
  show (l ++ [m]).getD (States.len ⟨l ++ [m], c'⟩ - 1) TransactionState.Dropped = m
  have hlen : States.len (⟨l ++ [m], c'⟩ : States) - 1 = l.length := by
    show (l ++ [m]).length - 1 = l.length
    simp
  rw [hlen, getD_append_self]

/-! ## Committed-view stability (claim C2 machinery) -/

theorem updMap_mem {α : Type} (m : List (Bytes × α)) (k : Bytes) (d : α) (f : α → α)
    (p : Bytes × α) (hp : p ∈ updMap m k d f) :
    p ∈ m ∨ (p.1 = k ∧ p.2 = f ((lookupM m k).getD d)) := by
  induction m with
  | nil =>
    simp only [updMap, List.mem_singleton] at hp
    right
    exact ⟨by rw [hp], by rw [hp]; rfl⟩
  | cons q rest ih =>
    obtain ⟨k', v⟩ := q
    by_cases hk : k' = k
    · subst hk
      have hu : updMap ((k', v) :: rest) k' d f = (k', f v) :: rest := by simp [updMap]
      rw [hu] at hp
      rcases List.mem_cons.mp hp with h1 | h1
      · right
        refine ⟨by rw [h1], ?_⟩
        rw [h1]
        simp [lookupM]
      · left; exact List.mem_cons.mpr (Or.inr h1)
    · have hu : updMap ((k', v) :: rest) k d f = (k', v) :: updMap rest k d f := by
        simp [updMap, hk]
      rw [hu] at hp
      rcases List.mem_cons.mp hp with h1 | h1
      · left; exact List.mem_cons.mpr (Or.inl h1)
      · rcases ih h1 with h2 | ⟨h2a, h2b⟩
        · left; exact List.mem_cons.mpr (Or.inr h2)
        · right
          refine ⟨h2a, ?_⟩
          rw [h2b]
          have hlk : lookupM ((k', v) :: rest) k = lookupM rest k := by
            simp [lookupM, hk]
          rw [hlk]

theorem gc_top_mem_bound (s : States) (cm : Option Nat) (m : List (Bytes × History))
    (bound : Nat) (hbd : ∀ p ∈ m, histIdxOk bound p.2) :
    ∀ p ∈ m.filterMap (fun p => (gcHistoryOpt p.2 s cm).map (fun h' => (p.1, h'))),
      histIdxOk bound p.2 := by
  intro p hp e he
  obtain ⟨q, hq, hfq⟩ := List.mem_filterMap.mp hp
  cases hgo : gcHistoryOpt q.2 s cm with
  | none => rw [hgo] at hfq; simp at hfq
  | some h' =>
    rw [hgo] at hfq
    simp at hfq
    have hh' : h' = gcHistory q.2 s cm := by
      by_cases hgE : (gcHistory q.2 s cm).isEmpty
      · simp [gcHistoryOpt, hgE] at hgo
      · simp [gcHistoryOpt, hgE] at hgo
        exact hgo.symm
    have he2 : e ∈ q.2 := by
      apply gcHistory_mem s cm q.2 e
      rw [← hh']
      rw [← hfq] at he
      exact he
    exact hbd q hq e he2

theorem C2Inv_congr_fields (c : Nat) (V : Bytes → Option (Option Bytes))
    (oc oc' : OverlayedChanges)
    (hs : oc'.changes.states = oc.changes.states)
    (ht : oc'.changes.top = oc.changes.top)
    (h : C2Inv c V oc) : C2Inv c V oc' := by
  unfold C2Inv at *
  rw [hs, ht]
  exact h

theorem C2Inv_gc (c : Nat) (V : Bytes → Option (Option Bytes)) (oc : OverlayedChanges)
    (b : Bool) (h : C2Inv c V oc) : C2Inv c V (OverlayedChanges.gc oc b) := by
  obtain ⟨hcom, hclen, hlast, hnd, hbd, hval⟩ := h
  refine ⟨hcom, hclen, hlast, ?_, ?_, ?_⟩
  · show ((oc.changes.top.filterMap (fun p =>
      (gcHistoryOpt p.2 oc.changes.states
        (if b then some (States.committed oc.changes.states) else none)).map
        (fun h' => (p.1, h')))).map Prod.fst).Nodup
    exact (keys_filterMapVals_sublist
      (fun _ h => gcHistoryOpt h oc.changes.states
        (if b then some (States.committed oc.changes.states) else none))
      oc.changes.top).nodup hnd
  · show ∀ p ∈ oc.changes.top.filterMap (fun p =>
      (gcHistoryOpt p.2 oc.changes.states
        (if b then some (States.committed oc.changes.states) else none)).map
        (fun h' => (p.1, h'))), histIdxOk (States.len oc.changes.states) p.2
    exact gc_top_mem_bound oc.changes.states _ oc.changes.top _ hbd
  · intro k2
    rw [← hval k2]
    show committedValueAt oc.changes.states (oc.changes.top.filterMap (fun p =>
      (gcHistoryOpt p.2 oc.changes.states
        (if b then some (States.committed oc.changes.states) else none)).map
        (fun h' => (p.1, h')))) k2 = committedValueAt oc.changes.states oc.changes.top k2
    apply committedValueAt_gcTop oc.changes.states _ oc.changes.top k2 hnd
    cases b
    · left; rfl
    · right; rfl

theorem C2Inv_maybeGcTransaction (c : Nat) (V : Bytes → Option (Option Bytes))
    (conf : GcConf) (oc : OverlayedChanges) (h : C2Inv c V oc) :
    C2Inv c V (maybeGcTransaction conf oc) := by
  unfold maybeGcTransaction
  by_cases ht : conf.trigger_transaction_gc < oc.operation_from_last_gc
  · rw [if_pos ht]
    exact C2Inv_gc c V _ false (C2Inv_congr_fields c V oc _ rfl rfl h)
  · rw [if_neg ht]; exact h

theorem C2Inv_maybeGcCommit (c : Nat) (V : Bytes → Option (Option Bytes))
    (conf : GcConf) (oc : OverlayedChanges) (h : C2Inv c V oc) :
    C2Inv c V (maybeGcCommit conf oc) := by
  unfold maybeGcCommit
  by_cases ht : conf.trigger_commit_gc < oc.operation_from_last_gc
  · rw [if_pos ht]
    exact C2Inv_gc c V _ _ (C2Inv_congr_fields c V oc _ rfl rfl h)
  · rw [if_neg ht]; exact h

theorem C2Inv_set_storage (c : Nat) (V : Bytes → Option (Option Bytes)) (conf : GcConf)
    (oc : OverlayedChanges) (k : Bytes) (v : Option Bytes) (h : C2Inv c V oc) :
    C2Inv c V (OverlayedChanges.set_storage conf oc k v) := by
  obtain ⟨hcom, hclen, hlast, hnd, hbd, hval⟩ := h
  refine ⟨hcom, hclen, hlast, nodup_keys_updMap _ _ _ _ hnd, ?_, ?_⟩
  · intro p hp e he
    rcases updMap_mem oc.changes.top k [] _ p hp with hmem | ⟨hp1, hp2⟩
    · exact hbd p hmem e he
    · rw [hp2] at he
      rcases setWithExtrinsic_mem _ _ _ _ e he with hidx | hmem2
      · rw [hidx]
        show States.len oc.changes.states - 1 < States.len oc.changes.states
        omega
      · cases hl : lookupM oc.changes.top k with
        | none => rw [hl] at hmem2; simp at hmem2
        | some h0 =>
          rw [hl] at hmem2
          simp only [Option.getD_some] at hmem2
          exact hbd (k, h0) (lookupM_mem _ _ _ hl) e hmem2
  · intro k2
    rw [← hval k2]
    unfold committedValueAt
    by_cases hk : k2 = k
    · subst hk
      show ((History.get_committed ((lookupM (updMap oc.changes.top k2 []
        (fun h => setWithExtrinsic h oc.changes.states v
          (OverlayedChanges.extrinsic_index oc))) k2).getD [])
        oc.changes.states oc.changes.states.commit).map (fun ov => ov.value)) = _
      rw [lookupM_updMap_self]
      simp only [Option.getD_some]
      rw [setWithExtrinsic_gcm _ _ _ _ oc.changes.states.commit (by omega)]
    · show ((History.get_committed ((lookupM (updMap oc.changes.top k []
        (fun h => setWithExtrinsic h oc.changes.states v
          (OverlayedChanges.extrinsic_index oc))) k2).getD [])
        oc.changes.states oc.changes.states.commit).map (fun ov => ov.value)) = _
      rw [lookupM_updMap_other _ _ _ _ _ hk]

theorem C2Inv_clearPrefix (c : Nat) (V : Bytes → Option (Option Bytes))
    (oc : OverlayedChanges) (p : Bytes) (h : C2Inv c V oc) :
    C2Inv c V (OverlayedChanges.clearPrefix oc p) := by
  obtain ⟨hcom, hclen, hlast, hnd, hbd, hval⟩ := h
  refine ⟨hcom, hclen, hlast, ?_, ?_, ?_⟩
  · show ((mapVals (fun k2 h => if p.isPrefixOf k2 then setWithExtrinsic h
      oc.changes.states none (OverlayedChanges.extrinsic_index oc) else h)
      oc.changes.top).map Prod.fst).Nodup
    rw [keys_mapVals]
    exact hnd
  · show ∀ q ∈ mapVals (fun k2 h => if p.isPrefixOf k2 then setWithExtrinsic h
      oc.changes.states none (OverlayedChanges.extrinsic_index oc) else h)
      oc.changes.top, histIdxOk (States.len oc.changes.states) q.2
    intro q hq e he
    obtain ⟨q0, hq0, hfq⟩ := List.mem_map.mp hq
    rw [← hfq] at he
    simp only at he
    by_cases hpk : p.isPrefixOf q0.1
    · rw [if_pos hpk] at he
      rcases setWithExtrinsic_mem _ _ _ _ e he with hidx | hmem2
      · rw [hidx]
        show States.len oc.changes.states - 1 < States.len oc.changes.states
        omega
      · exact hbd q0 hq0 e hmem2
    · rw [if_neg hpk] at he
      exact hbd q0 hq0 e he
  · intro k2
    rw [← hval k2]
    show committedValueAt oc.changes.states (mapVals (fun k2 h =>
      if p.isPrefixOf k2 then setWithExtrinsic h oc.changes.states none
        (OverlayedChanges.extrinsic_index oc) else h) oc.changes.top) k2 = _
    unfold committedValueAt
    rw [lookupM_mapVals (fun k2 h => if p.isPrefixOf k2 then setWithExtrinsic h
      oc.changes.states none (OverlayedChanges.extrinsic_index oc) else h)
      oc.changes.top k2]
    cases hl : lookupM oc.changes.top k2 with
    | none => rfl
    | some h0 =>
      have hcle : oc.changes.states.commit ≤ States.len oc.changes.states - 1 := by
        omega
      have hred : (Option.map (fun h => if p.isPrefixOf k2 then setWithExtrinsic h
          oc.changes.states none (OverlayedChanges.extrinsic_index oc) else h)
          (some h0)).getD [] = if p.isPrefixOf k2 then setWithExtrinsic h0
          oc.changes.states none (OverlayedChanges.extrinsic_index oc) else h0 := rfl
      rw [hred]
      by_cases hpk : p.isPrefixOf k2
      · rw [if_pos hpk,
          setWithExtrinsic_gcm _ _ _ _ oc.changes.states.commit hcle]
        rfl
      · rw [if_neg hpk]
        rfl

theorem C2Inv_newStates (c : Nat) (V : Bytes → Option (Option Bytes))
    (oc : OverlayedChanges) (s' : States) (h : C2Inv c V oc)
    (hcom : s'.commit = c)
    (hlen : States.len oc.changes.states ≤ States.len s')
    (hlast : States.marker s' (States.len s' - 1) ≠ TransactionState.Dropped)
    (hmk : ∀ i, i < c → States.marker s' i = States.marker oc.changes.states i) :
    C2Inv c V { oc with changes := { oc.changes with states := s' } } := by
  obtain ⟨hcom0, hclen, hlast0, hnd, hbd, hval⟩ := h
  refine ⟨hcom, by show c < States.len s'; omega, hlast, hnd, ?_, ?_⟩
  · intro p hp e he
    exact lt_of_lt_of_le (hbd p hp e he) hlen
  · intro k2
    rw [← hval k2]
    show committedValueAt s' oc.changes.top k2 =
      committedValueAt oc.changes.states oc.changes.top k2
    unfold committedValueAt
    rw [hcom, hcom0]
    cases hl : lookupM oc.changes.top k2 with
    | none => rfl
    | some h0 =>
      simp only [Option.getD_some]
      have hc : History.get_committed h0 s' c =
          History.get_committed h0 oc.changes.states c := by
        apply gcm_congr
        intro e _ hlt
        rw [hmk e.index hlt]
      rw [hc]

theorem C2Inv_applyOpNC (c : Nat) (V : Bytes → Option (Option Bytes)) (conf : GcConf)
    (oc : OverlayedChanges) (op : OpNC) (h : C2Inv c V oc) :
    C2Inv c V (applyOpNC conf oc op) := by
  have hcom0 := h.1
  have hclen := h.2.1
  cases op with
  | write w =>
    cases w with
    | setS k v => exact C2Inv_set_storage c V conf oc k v h
    | setC sk k v => exact C2Inv_congr_fields c V oc _ rfl rfl h
    | clearP p => exact C2Inv_clearPrefix c V oc p h
    | clearCS sk => exact C2Inv_congr_fields c V oc _ rfl rfl h
    | clearCP sk p =>
      cases hm : lookupM oc.changes.children sk with
      | none =>
        have heq : OverlayedChanges.clearChildPrefix oc sk p = oc := by
          simp [OverlayedChanges.clearChildPrefix, hm]
        show C2Inv c V (OverlayedChanges.clearChildPrefix oc sk p)
        rw [heq]
        exact h
      | some m =>
        apply C2Inv_congr_fields c V oc _ ?_ ?_ h
        · show (OverlayedChanges.clearChildPrefix oc sk p).changes.states = _
          simp [OverlayedChanges.clearChildPrefix, hm]
        · show (OverlayedChanges.clearChildPrefix oc sk p).changes.top = _
          simp [OverlayedChanges.clearChildPrefix, hm]
  | startT =>
    apply C2Inv_maybeGcTransaction
    show C2Inv c V { oc with changes := { oc.changes with
      states := States.start_transaction oc.changes.states } }
    apply C2Inv_newStates c V oc (States.start_transaction oc.changes.states) h hcom0
    · show States.len oc.changes.states ≤ States.len oc.changes.states.start_transaction
      show States.len oc.changes.states ≤ (oc.changes.states.history ++
        [TransactionState.TxPending]).length
      simp [States.len]
    · exact fun hcon => TransactionState.noConfusion
        ((marker_append_last oc.changes.states.history TransactionState.TxPending
          oc.changes.states.commit).symm.trans hcon)
    · intro i hi
      exact marker_append_lt TransactionState.TxPending oc.changes.states.commit
        oc.changes.states i (by omega)
  | discardT =>
    apply C2Inv_maybeGcTransaction
    show C2Inv c V { oc with changes := { oc.changes with
      states := States.discard_transaction oc.changes.states } }
    apply C2Inv_newStates c V oc (States.discard_transaction oc.changes.states) h hcom0
    · show States.len oc.changes.states ≤ (markFrom toDroppedMark
        (States.txLowerBound oc.changes.states) oc.changes.states.history ++
        [TransactionState.Pending]).length
      rw [List.length_append, markFrom_length]
      show States.len oc.changes.states ≤ States.len oc.changes.states + 1
      omega
    · exact fun hcon => TransactionState.noConfusion
        ((marker_append_last _ TransactionState.Pending
          oc.changes.states.commit).symm.trans hcon)
    · intro i hi
      apply marker_markAppend_lt
      · have := txLowerBound_ge_commit oc.changes.states
        omega
      · omega
  | commitT =>
    apply C2Inv_maybeGcTransaction
    show C2Inv c V { oc with changes := { oc.changes with
      states := States.commit_transaction oc.changes.states } }
    apply C2Inv_newStates c V oc (States.commit_transaction oc.changes.states) h hcom0
    · show States.len oc.changes.states ≤ (markFrom toCommittedMark
        (States.txLowerBound oc.changes.states) oc.changes.states.history ++
        [TransactionState.Pending]).length
      rw [List.length_append, markFrom_length]
      show States.len oc.changes.states ≤ States.len oc.changes.states + 1
      omega
    · exact fun hcon => TransactionState.noConfusion
        ((marker_append_last _ TransactionState.Pending
          oc.changes.states.commit).symm.trans hcon)
    · intro i hi
      apply marker_markAppend_lt
      · have := txLowerBound_ge_commit oc.changes.states
        omega
      · omega
  | discardP =>
    apply C2Inv_maybeGcCommit
    show C2Inv c V { oc with changes := { oc.changes with
      states := States.discard_prospective oc.changes.states } }
    apply C2Inv_newStates c V oc (States.discard_prospective oc.changes.states) h hcom0
    · show States.len oc.changes.states ≤ (markFrom toDroppedMark
        oc.changes.states.commit oc.changes.states.history ++
        [TransactionState.Pending]).length
      rw [List.length_append, markFrom_length]
      show States.len oc.changes.states ≤ States.len oc.changes.states + 1
      omega
    · exact fun hcon => TransactionState.noConfusion
        ((marker_append_last _ TransactionState.Pending
          oc.changes.states.commit).symm.trans hcon)
    · intro i hi
      apply marker_markAppend_lt
      · omega
      · omega

theorem C2Inv_applyOpsNC (c : Nat) (V : Bytes → Option (Option Bytes)) (conf : GcConf) :
    ∀ (W : List OpNC) (oc : OverlayedChanges), C2Inv c V oc →
      C2Inv c V (applyOpsNC conf W oc) := by
  intro W
  induction W with
  | nil => intro oc h; exact h
  | cons op rest ih =>
    intro oc h
    exact ih (applyOpNC conf oc op) (C2Inv_applyOpNC c V conf oc op h)

theorem storage_maybeGcCommit (conf : GcConf) (oc : OverlayedChanges) (k : Bytes)
    (hnd : (oc.changes.top.map Prod.fst).Nodup) :
    OverlayedChanges.storage (maybeGcCommit conf oc) k =
      OverlayedChanges.storage oc k := by
  unfold maybeGcCommit
  by_cases ht : conf.trigger_commit_gc < oc.operation_from_last_gc
  · rw [if_pos ht]
    exact storage_gc { oc with operation_from_last_gc := 0 } (!oc.not_eager_gc) k hnd
  · rw [if_neg ht]

theorem storage_maybeGcTransaction (conf : GcConf) (oc : OverlayedChanges) (k : Bytes)
    (hnd : (oc.changes.top.map Prod.fst).Nodup) :
    OverlayedChanges.storage (maybeGcTransaction conf oc) k =
      OverlayedChanges.storage oc k := by
  unfold maybeGcTransaction
  by_cases ht : conf.trigger_transaction_gc < oc.operation_from_last_gc
  · rw [if_pos ht]
    exact storage_gc { oc with operation_from_last_gc := 0 } false k hnd
  · rw [if_neg ht]

theorem C2_anchor (conf : GcConf) (oc : OverlayedChanges) (hwf : Wf oc) :
    C2Inv (States.len oc.changes.states) (fun k2 => OverlayedChanges.storage oc k2)
      (OverlayedChanges.commit_prospective conf oc) := by
  obtain ⟨hclen, hlast, hndt, hbd, _, _⟩ := hwf
  apply C2Inv_maybeGcCommit
  show C2Inv _ _ { oc with changes := { oc.changes with
    states := States.commit_prospective oc.changes.states } }
  refine ⟨rfl, ?_, ?_, hndt, ?_, ?_⟩
  · show States.len oc.changes.states <
      (oc.changes.states.history ++ [TransactionState.Pending]).length
    rw [List.length_append]
    show States.len oc.changes.states < oc.changes.states.history.length + 1
    show States.len oc.changes.states < States.len oc.changes.states + 1
    omega
  · exact fun hcon => TransactionState.noConfusion
      ((marker_append_last oc.changes.states.history TransactionState.Pending
        oc.changes.states.history.length).symm.trans hcon)
  · intro p hp e he
    have h1 := hbd p hp e he
    show e.index < (oc.changes.states.history ++ [TransactionState.Pending]).length
    rw [List.length_append]
    show e.index < oc.changes.states.history.length + 1
    have h2 : e.index < oc.changes.states.history.length := h1
    omega
  · intro k2
    show committedValueAt (States.commit_prospective oc.changes.states)
      oc.changes.top k2 = OverlayedChanges.storage oc k2
    rw [storage_eq_valueAt]
    unfold committedValueAt valueAt
    cases hl : lookupM oc.changes.top k2 with
    | none => rfl
    | some h0 =>
      simp only [Option.getD_some]
      congr 1
      have hbde : ∀ e ∈ h0, e.index < States.len oc.changes.states :=
        hbd (k2, h0) (lookupM_mem _ _ _ hl)
      have hcm : (States.commit_prospective oc.changes.states).commit =
          States.len oc.changes.states := rfl
      rw [hcm]
      rw [gcm_eq_get_of_below (States.commit_prospective oc.changes.states)
        (States.len oc.changes.states) h0 hbde]
      apply get_congr
      intro e he
      show States.marker ⟨oc.changes.states.history ++ [TransactionState.Pending],
        oc.changes.states.history.length⟩ e.index = TransactionState.Dropped ↔
        States.marker oc.changes.states e.index = TransactionState.Dropped
      rw [marker_append_lt TransactionState.Pending
        oc.changes.states.history.length oc.changes.states e.index (hbde e he)]

theorem C2_final (conf : GcConf) (c : Nat) (V : Bytes → Option (Option Bytes))
    (oc : OverlayedChanges) (h : C2Inv c V oc) (k : Bytes) :
    OverlayedChanges.storage (OverlayedChanges.discard_prospective conf oc) k = V k := by
  obtain ⟨hcom, hclen, hlast, hnd, hbd, hval⟩ := h
  have h1 : OverlayedChanges.storage (OverlayedChanges.discard_prospective conf oc) k =
      OverlayedChanges.storage { oc with changes := { oc.changes with
        states := States.discard_prospective oc.changes.states } } k := by
    apply storage_maybeGcCommit
    exact hnd
  rw [h1, storage_eq_valueAt, ← hval k]
  show valueAt (States.discard_prospective oc.changes.states) oc.changes.top k =
    committedValueAt oc.changes.states oc.changes.top k
  unfold valueAt committedValueAt
  cases hl : lookupM oc.changes.top k with
  | none => rfl
  | some h0 =>
    simp only [Option.getD_some]
    congr 1
    apply get_eq_gcm_of_dropped_high
    intro e he
    have hbde : e.index < States.len oc.changes.states :=
      hbd (k, h0) (lookupM_mem _ _ _ hl) e he
    constructor
    · intro hce
      show States.marker ⟨markFrom toDroppedMark oc.changes.states.commit
        oc.changes.states.history ++ [TransactionState.Pending],
        oc.changes.states.commit⟩ e.index = TransactionState.Dropped
      exact marker_markAppend_ge toDroppedMark TransactionState.Pending
        oc.changes.states.commit oc.changes.states.commit oc.changes.states e.index
        hce hbde
    · intro hce
      show States.marker ⟨markFrom toDroppedMark oc.changes.states.commit
        oc.changes.states.history ++ [TransactionState.Pending],
        oc.changes.states.commit⟩ e.index = TransactionState.Dropped ↔
        States.marker oc.changes.states e.index = TransactionState.Dropped
      rw [marker_markAppend_lt toDroppedMark TransactionState.Pending
        oc.changes.states.commit oc.changes.states.commit oc.changes.states e.index
        hce hbde]

/-- C2: for a well-formed overlay, after `commit_prospective` followed by any
sequence of operations not containing another `commit_prospective` (writes,
transaction boundaries, even further prospective discards), a
`discard_prospective` leaves `storage(k)` at exactly the value it had at the
moment of the commit, for every key `k`: nothing committed before the cursor
advance is ever removed by a later discard, and everything done after it is. -/
theorem c2_commit_durability (conf : GcConf) (oc : OverlayedChanges) (W : List OpNC)
    (k : Bytes) (hwf : Wf oc) :
    OverlayedChanges.storage
      (OverlayedChanges.discard_prospective conf
        (applyOpsNC conf W (OverlayedChanges.commit_prospective conf oc))) k =
      OverlayedChanges.storage oc k := by
  have h1 := C2_anchor conf oc hwf
  have h2 := C2Inv_applyOpsNC (States.len oc.changes.states)
    (fun k2 => OverlayedChanges.storage oc k2) conf W _ h1
  exact C2_final conf _ _ _ h2 k

/-- C2 witness: durability through a write, a transaction, an inner tombstone
and a transaction discard at a concrete reachable overlay. -/
theorem c2_commit_durability_witness :
    OverlayedChanges.storage
      (OverlayedChanges.discard_prospective confBig
        (applyOpsNC confBig
          [OpNC.write (WriteOp.setS [1] (some [9])), OpNC.startT,
           OpNC.write (WriteOp.setS [1] none), OpNC.discardT]
          (OverlayedChanges.commit_prospective confBig cexC1Base))) [1] =
      OverlayedChanges.storage cexC1Base [1] :=
  c2_commit_durability confBig cexC1Base
    [OpNC.write (WriteOp.setS [1] (some [9])), OpNC.startT,
     OpNC.write (WriteOp.setS [1] none), OpNC.discardT] [1] (by decide)

/-! ## Transaction-nesting machinery (claim C1) -/

theorem valueAt_gcTop_cross (s sF : States) (bound : Nat) (m : List (Bytes × History))
    (k : Bytes) (hnd : (m.map Prod.fst).Nodup)
    (hidx : ∀ p ∈ m, histIdxOk bound p.2)
    (hdropF : ∀ i, i < bound → States.marker s i = TransactionState.Dropped →
      States.marker sF i = TransactionState.Dropped) :
    valueAt sF
      (m.filterMap (fun p => (gcHistoryOpt p.2 s none).map (fun h' => (p.1, h')))) k =
      valueAt sF m k := by
  unfold valueAt
  rw [lookupM_filterMapVals (fun _ h => gcHistoryOpt h s none) m k hnd]
  cases hl : lookupM m k with
  | none => rfl
  | some h =>
    have hbde := hidx (k, h) (lookupM_mem _ _ _ hl)
    by_cases he : (gcHistory h s none).isEmpty
    · have hgo : gcHistoryOpt h s none = none := by simp [gcHistoryOpt, he]
      have hall : ∀ e ∈ h, States.marker s e.index = TransactionState.Dropped :=
        (get_eq_none_iff s h).mp
          ((gcHistory_eq_nil_iff s none h).mp (List.isEmpty_iff.mp he))
      have hallF : ∀ e ∈ h, States.marker sF e.index = TransactionState.Dropped :=
        fun e heh => hdropF e.index (hbde e heh) (hall e heh)
      show (History.get ((gcHistoryOpt h s none).getD []) sF).map (fun ov => ov.value) =
        (History.get h sF).map (fun ov => ov.value)
      rw [hgo]
      show (History.get ([] : History) sF).map (fun ov => ov.value) =
        (History.get h sF).map (fun ov => ov.value)
      rw [get_none_of_all_dropped sF h hallF]
      rfl
    · have hgo : gcHistoryOpt h s none = some (gcHistory h s none) := by
        simp [gcHistoryOpt, he]
      show (History.get ((gcHistoryOpt h s none).getD []) sF).map (fun ov => ov.value) =
        (History.get h sF).map (fun ov => ov.value)
      rw [hgo]
      show (History.get (gcHistory h s none) sF).map (fun ov => ov.value) =
        (History.get h sF).map (fun ov => ov.value)
      congr 1
      rw [gcHistory_none]
      apply get_filter sF _ h
      intro e heh hp
      apply hdropF e.index (hbde e heh)
      simpa using hp

theorem C1DiscardInv_congr_fields (sA sF : States) (V : Bytes → Option (Option Bytes))
    (oc oc' : OverlayedChanges)
    (hs : oc'.changes.states = oc.changes.states)
    (ht : oc'.changes.top = oc.changes.top)
    (h : C1DiscardInv sA sF V oc) : C1DiscardInv sA sF V oc' := by
  unfold C1DiscardInv at *
  rw [hs, ht]
  exact h

theorem C1DiscardInv_maybeGc (sA sF : States) (V : Bytes → Option (Option Bytes))
    (conf : GcConf) (oc : OverlayedChanges)
    (hdropF : ∀ i, i < States.len sA →
      States.marker sA i = TransactionState.Dropped →
      States.marker sF i = TransactionState.Dropped)
    (h : C1DiscardInv sA sF V oc) :
    C1DiscardInv sA sF V (maybeGcTransaction conf oc) := by
  unfold maybeGcTransaction
  by_cases ht : conf.trigger_transaction_gc < oc.operation_from_last_gc
  · rw [if_pos ht]
    obtain ⟨hsA, hnd, hbd, hval⟩ := h
    refine ⟨hsA, ?_, ?_, ?_⟩
    · show ((oc.changes.top.filterMap (fun p =>
        (gcHistoryOpt p.2 oc.changes.states
          (if false then some (States.committed oc.changes.states) else none)).map
          (fun h' => (p.1, h')))).map Prod.fst).Nodup
      exact (keys_filterMapVals_sublist
        (fun _ h2 => gcHistoryOpt h2 oc.changes.states
          (if false then some (States.committed oc.changes.states) else none))
        oc.changes.top).nodup hnd
    · show ∀ p ∈ oc.changes.top.filterMap (fun p =>
        (gcHistoryOpt p.2 oc.changes.states
          (if false then some (States.committed oc.changes.states) else none)).map
          (fun h' => (p.1, h'))), histIdxOk (States.len sA) p.2
      exact gc_top_mem_bound oc.changes.states _ oc.changes.top _ hbd
    · intro k2
      rw [← hval k2]
      show valueAt sF (oc.changes.top.filterMap (fun p =>
        (gcHistoryOpt p.2 oc.changes.states
          (if false then some (States.committed oc.changes.states) else none)).map
          (fun h' => (p.1, h')))) k2 = valueAt sF oc.changes.top k2
      rw [show (if false then some (States.committed oc.changes.states) else none) =
        (none : Option Nat) from rfl]
      apply valueAt_gcTop_cross oc.changes.states sF (States.len sA)
        oc.changes.top k2 hnd hbd
      intro i hi hd
      apply hdropF i hi
      rw [← hsA]
      exact hd
  · rw [if_neg ht]; exact h

theorem C1DiscardInv_write (sA sF : States) (V : Bytes → Option (Option Bytes))
    (conf : GcConf) (oc : OverlayedChanges) (w : WriteOp)
    (hlenA : 0 < States.len sA)
    (hdropn : States.marker sF (States.len sA - 1) = TransactionState.Dropped)
    (hdropF : ∀ i, i < States.len sA →
      States.marker sA i = TransactionState.Dropped →
      States.marker sF i = TransactionState.Dropped)
    (h : C1DiscardInv sA sF V oc) :
    C1DiscardInv sA sF V (applyWrite conf oc w) := by
  obtain ⟨hsA, hnd, hbd, hval⟩ := h
  have hgetDbd : ∀ k2, histIdxOk (States.len sA) ((lookupM oc.changes.top k2).getD []) := by
    intro k2
    cases hl : lookupM oc.changes.top k2 with
    | none => intro e he; simp at he
    | some h0 =>
      intro e he
      simp only [Option.getD_some] at he
      exact hbd (k2, h0) (lookupM_mem _ _ _ hl) e he
  have hdropn2 : States.marker sF (States.len oc.changes.states - 1) =
      TransactionState.Dropped := by
    rw [hsA]; exact hdropn
  have hcompat : ∀ k2, ∀ e ∈ (lookupM oc.changes.top k2).getD [],
      States.marker oc.changes.states e.index = TransactionState.Dropped →
      States.marker sF e.index = TransactionState.Dropped := by
    intro k2 e he hd
    apply hdropF e.index (hgetDbd k2 e he)
    rw [← hsA]; exact hd
  have hsetTop : ∀ k2 v ei,
      History.get (setWithExtrinsic ((lookupM oc.changes.top k2).getD [])
        oc.changes.states v ei) sF =
      History.get ((lookupM oc.changes.top k2).getD []) sF := by
    intro k2 v ei
    exact setWithExtrinsic_get_other _ oc.changes.states sF v ei hdropn2 (hcompat k2)
  cases w with
  | setS k v =>
    refine ⟨hsA, nodup_keys_updMap _ _ _ _ hnd, ?_, ?_⟩
    · intro p hp e he
      rcases updMap_mem oc.changes.top k [] _ p hp with hmem | ⟨hp1, hp2⟩
      · exact hbd p hmem e he
      · rw [hp2] at he
        rcases setWithExtrinsic_mem _ _ _ _ e he with hidx | hmem2
        · rw [hidx, hsA]
          omega
        · exact hgetDbd k e hmem2
    · intro k2
      rw [← hval k2]
      unfold valueAt
      by_cases hk : k2 = k
      · subst hk
        show (History.get ((lookupM (updMap oc.changes.top k2 [] (fun h =>
          setWithExtrinsic h oc.changes.states v
            (OverlayedChanges.extrinsic_index oc))) k2).getD []) sF).map
            (fun ov => ov.value) = _
        rw [lookupM_updMap_self]
        simp only [Option.getD_some]
        rw [hsetTop k2 v (OverlayedChanges.extrinsic_index oc)]
      · show (History.get ((lookupM (updMap oc.changes.top k [] (fun h =>
          setWithExtrinsic h oc.changes.states v
            (OverlayedChanges.extrinsic_index oc))) k2).getD []) sF).map
            (fun ov => ov.value) = _
        rw [lookupM_updMap_other _ _ _ _ _ hk]
  | setC sk k v =>
    exact C1DiscardInv_congr_fields sA sF V oc _ rfl rfl ⟨hsA, hnd, hbd, hval⟩
  | clearCS sk =>
    exact C1DiscardInv_congr_fields sA sF V oc _ rfl rfl ⟨hsA, hnd, hbd, hval⟩
  | clearCP sk p =>
    cases hm : lookupM oc.changes.children sk with
    | none =>
      show C1DiscardInv sA sF V (OverlayedChanges.clearChildPrefix oc sk p)
      rw [show OverlayedChanges.clearChildPrefix oc sk p = oc from by
        simp [OverlayedChanges.clearChildPrefix, hm]]
      exact ⟨hsA, hnd, hbd, hval⟩
    | some m =>
      apply C1DiscardInv_congr_fields sA sF V oc _ ?_ ?_ ⟨hsA, hnd, hbd, hval⟩
      · show (OverlayedChanges.clearChildPrefix oc sk p).changes.states = _
        simp [OverlayedChanges.clearChildPrefix, hm]
      · show (OverlayedChanges.clearChildPrefix oc sk p).changes.top = _
        simp [OverlayedChanges.clearChildPrefix, hm]
  | clearP p =>
    refine ⟨hsA, ?_, ?_, ?_⟩
    · show ((mapVals (fun k2 h => if p.isPrefixOf k2 then setWithExtrinsic h
        oc.changes.states none (OverlayedChanges.extrinsic_index oc) else h)
        oc.changes.top).map Prod.fst).Nodup
      rw [keys_mapVals]
      exact hnd
    · show ∀ q ∈ mapVals (fun k2 h => if p.isPrefixOf k2 then setWithExtrinsic h
        oc.changes.states none (OverlayedChanges.extrinsic_index oc) else h)
        oc.changes.top, histIdxOk (States.len sA) q.2
      intro q hq e he
      obtain ⟨q0, hq0, hfq⟩ := List.mem_map.mp hq
      rw [← hfq] at he
      simp only at he
      by_cases hpk : p.isPrefixOf q0.1
      · rw [if_pos hpk] at he
        rcases setWithExtrinsic_mem _ _ _ _ e he with hidx | hmem2
        · rw [hidx, hsA]
          omega
        · exact hbd q0 hq0 e hmem2
      · rw [if_neg hpk] at he
        exact hbd q0 hq0 e he
    · intro k2
      rw [← hval k2]
      unfold valueAt
      show (History.get ((lookupM (mapVals (fun k3 h => if p.isPrefixOf k3 then
        setWithExtrinsic h oc.changes.states none
          (OverlayedChanges.extrinsic_index oc) else h) oc.changes.top) k2).getD [])
        sF).map (fun ov => ov.value) = _
      rw [lookupM_mapVals (fun k3 h => if p.isPrefixOf k3 then setWithExtrinsic h
        oc.changes.states none (OverlayedChanges.extrinsic_index oc) else h)
        oc.changes.top k2]
      cases hl : lookupM oc.changes.top k2 with
      | none => rfl
      | some h0 =>
        have hred : (Option.map (fun h => if p.isPrefixOf k2 then setWithExtrinsic h
            oc.changes.states none (OverlayedChanges.extrinsic_index oc) else h)
            (some h0)).getD [] = if p.isPrefixOf k2 then setWithExtrinsic h0
            oc.changes.states none (OverlayedChanges.extrinsic_index oc) else h0 := rfl
        rw [hred]
        by_cases hpk : p.isPrefixOf k2
        · rw [if_pos hpk]
          have hst := hsetTop k2 none (OverlayedChanges.extrinsic_index oc)
          rw [hl] at hst
          simp only [Option.getD_some] at hst
          rw [hst]
          rfl
        · rw [if_neg hpk]
          rfl

theorem C1DiscardInv_applyWrites (sA sF : States) (V : Bytes → Option (Option Bytes))
    (conf : GcConf)
    (hlenA : 0 < States.len sA)
    (hdropn : States.marker sF (States.len sA - 1) = TransactionState.Dropped)
    (hdropF : ∀ i, i < States.len sA →
      States.marker sA i = TransactionState.Dropped →
      States.marker sF i = TransactionState.Dropped) :
    ∀ (W : List WriteOp) (oc : OverlayedChanges), C1DiscardInv sA sF V oc →
      C1DiscardInv sA sF V (applyWrites conf W oc) := by
  intro W
  induction W with
  | nil => intro oc h; exact h
  | cons w rest ih =>
    intro oc h
    exact ih (applyWrite conf oc w)
      (C1DiscardInv_write sA sF V conf oc w hlenA hdropn hdropF h)

theorem txLowerBound_append_tx (s : States) (hc : s.commit ≤ s.history.length) :
    States.txLowerBound ⟨s.history ++ [TransactionState.TxPending], s.commit⟩ =
      s.history.length := by
  show (match lastTxIdx ((⟨s.history ++ [TransactionState.TxPending], s.commit⟩ :
      States).history) with
    | some j => if (⟨s.history ++ [TransactionState.TxPending], s.commit⟩ :
        States).commit ≤ j then j
      else (⟨s.history ++ [TransactionState.TxPending], s.commit⟩ : States).commit
    | none => (⟨s.history ++ [TransactionState.TxPending], s.commit⟩ : States).commit) =
    s.history.length
  rw [show (⟨s.history ++ [TransactionState.TxPending], s.commit⟩ :
    States).history = s.history ++ [TransactionState.TxPending] from rfl]
  rw [lastTxIdx_append_tx]
  simp [hc]

theorem discard_tx_append (s : States) (hc : s.commit ≤ s.history.length) :
    States.discard_transaction ⟨s.history ++ [TransactionState.TxPending], s.commit⟩ =
      ⟨s.history ++ [TransactionState.Dropped, TransactionState.Pending], s.commit⟩ := by
  show (⟨markFrom toDroppedMark
    (States.txLowerBound ⟨s.history ++ [TransactionState.TxPending], s.commit⟩)
    (s.history ++ [TransactionState.TxPending]) ++ [TransactionState.Pending],
    s.commit⟩ : States) = _
  rw [txLowerBound_append_tx s hc]
  rw [markFrom_append]
  rw [List.append_assoc]
  rfl

theorem commit_tx_append (s : States) (hc : s.commit ≤ s.history.length) :
    States.commit_transaction ⟨s.history ++ [TransactionState.TxPending], s.commit⟩ =
      ⟨s.history ++ [TransactionState.Committed, TransactionState.Pending], s.commit⟩ := by
  show (⟨markFrom toCommittedMark
    (States.txLowerBound ⟨s.history ++ [TransactionState.TxPending], s.commit⟩)
    (s.history ++ [TransactionState.TxPending]) ++ [TransactionState.Pending],
    s.commit⟩ : States) = _
  rw [txLowerBound_append_tx s hc]
  rw [markFrom_append]
  rw [List.append_assoc]
  rfl

theorem marker_append_self (l : List TransactionState) (m : TransactionState) (c' : Nat) :
    States.marker ⟨l ++ [m], c'⟩ l.length = m := by
  show (l ++ [m]).getD l.length TransactionState.Dropped = m
  exact getD_append_self _ _ _

theorem C1_discard_final (conf : GcConf) (oc : OverlayedChanges) (W : List WriteOp)
    (k : Bytes) (hwf : Wf oc) :
    OverlayedChanges.storage
      (OverlayedChanges.discard_transaction conf
        (applyWrites conf W (OverlayedChanges.start_transaction conf oc))) k =
      OverlayedChanges.storage oc k := by
  obtain ⟨hclen, _hlast, hndt, hbd, _, _⟩ := hwf
  have hn : oc.changes.states.commit < oc.changes.states.history.length := hclen
  have hsplit : oc.changes.states.history ++
      [TransactionState.Dropped, TransactionState.Pending] =
      (oc.changes.states.history ++ [TransactionState.Dropped]) ++
        [TransactionState.Pending] := by
    rw [List.append_assoc]
    rfl
  have hmF : ∀ i, i < oc.changes.states.history.length →
      States.marker ⟨oc.changes.states.history ++
        [TransactionState.Dropped, TransactionState.Pending],
        oc.changes.states.commit⟩ i = States.marker oc.changes.states i := by
    intro i hi
    show (oc.changes.states.history ++
      [TransactionState.Dropped, TransactionState.Pending]).getD i
        TransactionState.Dropped =
      oc.changes.states.history.getD i TransactionState.Dropped
    rw [hsplit]
    rw [getD_append_lt _ _ _ _
      (by simp only [List.length_append, List.length_cons, List.length_nil]; omega)]
    exact getD_append_lt _ _ _ _ hi
  have hmFn : States.marker ⟨oc.changes.states.history ++
      [TransactionState.Dropped, TransactionState.Pending],
      oc.changes.states.commit⟩ oc.changes.states.history.length =
      TransactionState.Dropped := by
    show (oc.changes.states.history ++
      [TransactionState.Dropped, TransactionState.Pending]).getD
        oc.changes.states.history.length TransactionState.Dropped =
      TransactionState.Dropped
    rw [hsplit]
    rw [getD_append_lt _ _ _ _
      (by simp only [List.length_append, List.length_cons, List.length_nil]; omega)]
    exact getD_append_self _ _ _
  have hlenA : States.len (States.start_transaction oc.changes.states) =
      oc.changes.states.history.length + 1 := by
    show (oc.changes.states.history ++ [TransactionState.TxPending]).length = _
    simp
  have hmAlt : ∀ i, i < oc.changes.states.history.length →
      States.marker (States.start_transaction oc.changes.states) i =
        States.marker oc.changes.states i := by
    intro i hi
    exact marker_append_lt _ _ oc.changes.states i hi
  have hmAn : States.marker (States.start_transaction oc.changes.states)
      oc.changes.states.history.length = TransactionState.TxPending :=
    marker_append_self oc.changes.states.history _ _
  have hdropF : ∀ i, i < States.len (States.start_transaction oc.changes.states) →
      States.marker (States.start_transaction oc.changes.states) i =
        TransactionState.Dropped →
      States.marker ⟨oc.changes.states.history ++
        [TransactionState.Dropped, TransactionState.Pending],
        oc.changes.states.commit⟩ i = TransactionState.Dropped := by
    intro i hi hd
    rw [hlenA] at hi
    by_cases hlt : i < oc.changes.states.history.length
    · rw [hmF i hlt]
      rw [hmAlt i hlt] at hd
      exact hd
    · have hieq : i = oc.changes.states.history.length := by omega
      subst hieq
      rw [hmAn] at hd
      cases hd
  have hdropn : States.marker ⟨oc.changes.states.history ++
      [TransactionState.Dropped, TransactionState.Pending],
      oc.changes.states.commit⟩
      (States.len (States.start_transaction oc.changes.states) - 1) =
      TransactionState.Dropped := by
    rw [hlenA]
    exact hmFn
  have hbase : C1DiscardInv (States.start_transaction oc.changes.states)
      ⟨oc.changes.states.history ++
        [TransactionState.Dropped, TransactionState.Pending], oc.changes.states.commit⟩
      (fun k2 => OverlayedChanges.storage oc k2)
      { oc with changes := OverlayedChangeSet.start_transaction oc.changes } := by
    refine ⟨rfl, hndt, ?_, ?_⟩
    · intro p hp e he
      have h1 : e.index < oc.changes.states.history.length := hbd p hp e he
      show e.index < States.len (States.start_transaction oc.changes.states)
      rw [hlenA]
      omega
    · intro k2
      have hbdk : ∀ e ∈ (lookupM oc.changes.top k2).getD [],
          e.index < oc.changes.states.history.length := by
        cases hl : lookupM oc.changes.top k2 with
        | none => intro e he; simp at he
        | some h0 =>
          intro e he
          simp only [Option.getD_some] at he
          exact hbd (k2, h0) (lookupM_mem _ _ _ hl) e he
      show valueAt ⟨oc.changes.states.history ++
          [TransactionState.Dropped, TransactionState.Pending],
          oc.changes.states.commit⟩ oc.changes.top k2 =
        OverlayedChanges.storage oc k2
      rw [storage_eq_valueAt]
      show (History.get ((lookupM oc.changes.top k2).getD [])
          ⟨oc.changes.states.history ++
            [TransactionState.Dropped, TransactionState.Pending],
            oc.changes.states.commit⟩).map (fun ov => ov.value) =
        (History.get ((lookupM oc.changes.top k2).getD []) oc.changes.states).map
          (fun ov => ov.value)
      congr 1
      apply get_congr
      intro e he
      rw [hmF e.index (hbdk e he)]
  have hinv := C1DiscardInv_applyWrites (States.start_transaction oc.changes.states)
      ⟨oc.changes.states.history ++ [TransactionState.Dropped, TransactionState.Pending],
        oc.changes.states.commit⟩
      (fun k2 => OverlayedChanges.storage oc k2) conf
      (by rw [hlenA]; omega) hdropn hdropF W
      (OverlayedChanges.start_transaction conf oc)
      (C1DiscardInv_maybeGc _ _ _ conf _ hdropF hbase)
  obtain ⟨hsW, hndW, _hbdW, hvalW⟩ := hinv
  show OverlayedChanges.storage
    (maybeGcTransaction conf
      { applyWrites conf W (OverlayedChanges.start_transaction conf oc) with
        changes := OverlayedChangeSet.discard_transaction
          (applyWrites conf W (OverlayedChanges.start_transaction conf oc)).changes }) k =
    OverlayedChanges.storage oc k
  refine Eq.trans (storage_maybeGcTransaction conf
    { applyWrites conf W (OverlayedChanges.start_transaction conf oc) with
      changes := OverlayedChangeSet.discard_transaction
        (applyWrites conf W (OverlayedChanges.start_transaction conf oc)).changes }
    k hndW) ?_
  rw [storage_eq_valueAt]
  show valueAt (States.discard_transaction
      (applyWrites conf W (OverlayedChanges.start_transaction conf oc)).changes.states)
      (applyWrites conf W (OverlayedChanges.start_transaction conf oc)).changes.top k =
    OverlayedChanges.storage oc k
  rw [hsW]
  show valueAt (States.discard_transaction ⟨oc.changes.states.history ++
      [TransactionState.TxPending], oc.changes.states.commit⟩)
      (applyWrites conf W (OverlayedChanges.start_transaction conf oc)).changes.top k =
    OverlayedChanges.storage oc k
  rw [discard_tx_append oc.changes.states (le_of_lt hn)]
  exact hvalW k

theorem maybeGcTransaction_noop (conf : GcConf) (oc : OverlayedChanges)
    (h : oc.operation_from_last_gc ≤ conf.trigger_transaction_gc) :
    maybeGcTransaction conf oc = oc := by
  unfold maybeGcTransaction
  rw [if_neg (by omega)]

theorem extrinsic_index_rel (sA sB : States) (cfg : Option ChangesTrieConfig)
    (ocA ocB : OverlayedChanges) (h : C1CommitRel sA sB cfg ocA ocB) :
    OverlayedChanges.extrinsic_index ocA = OverlayedChanges.extrinsic_index ocB := by
  obtain ⟨hsA, hsB, hcA, hcB, _hnd, _hiso, _hbd, hval⟩ := h
  have hst : OverlayedChanges.storage ocA EXTRINSIC_INDEX =
      OverlayedChanges.storage ocB EXTRINSIC_INDEX := by
    rw [storage_eq_valueAt, storage_eq_valueAt, hsA, hsB]
    exact hval EXTRINSIC_INDEX
  unfold OverlayedChanges.extrinsic_index
  rw [hcA, hcB, hst]

theorem C1CommitRel_congr_fields (sA sB : States) (cfg : Option ChangesTrieConfig)
    (ocA ocB ocA' ocB' : OverlayedChanges)
    (hsA' : ocA'.changes.states = ocA.changes.states)
    (htA : ocA'.changes.top = ocA.changes.top)
    (hcA' : ocA'.changes_trie_config = ocA.changes_trie_config)
    (hsB' : ocB'.changes.states = ocB.changes.states)
    (htB : ocB'.changes.top = ocB.changes.top)
    (hcB' : ocB'.changes_trie_config = ocB.changes_trie_config)
    (h : C1CommitRel sA sB cfg ocA ocB) : C1CommitRel sA sB cfg ocA' ocB' := by
  unfold C1CommitRel at *
  rw [hsA', htA, hcA', hsB', htB, hcB']
  exact h

theorem C1CommitRel_write (sA sB : States) (cfg : Option ChangesTrieConfig)
    (conf : GcConf) (ocA ocB : OverlayedChanges) (w : WriteOp)
    (hlenA : 0 < States.len sA)
    (hopenA : ¬ States.marker sA (States.len sA - 1) = TransactionState.Dropped)
    (hopenB : ¬ States.marker sB (States.len sB - 1) = TransactionState.Dropped)
    (h : C1CommitRel sA sB cfg ocA ocB) :
    C1CommitRel sA sB cfg (applyWrite conf ocA w) (applyWrite conf ocB w) := by
  have hei : OverlayedChanges.extrinsic_index ocA = OverlayedChanges.extrinsic_index ocB :=
    extrinsic_index_rel sA sB cfg ocA ocB h
  obtain ⟨hsA, hsB, hcA, hcB, hnd, hiso, hbd, hval⟩ := h
  have hgetDbdA : ∀ k2, histIdxOk (States.len sA) ((lookupM ocA.changes.top k2).getD []) := by
    intro k2
    cases hl : lookupM ocA.changes.top k2 with
    | none => intro e he; simp at he
    | some h0 =>
      intro e he
      simp only [Option.getD_some] at he
      exact hbd (k2, h0) (lookupM_mem _ _ _ hl) e he
  cases w with
  | setS k v =>
    refine ⟨hsA, hsB, hcA, hcB, ?_, ?_, ?_, ?_⟩
    · show ((updMap ocA.changes.top k []
        (fun h => setWithExtrinsic h ocA.changes.states v
          (OverlayedChanges.extrinsic_index ocA))).map Prod.fst).Nodup
      exact nodup_keys_updMap _ _ _ _ hnd
    · intro k2
      show (lookupM (updMap ocA.changes.top k []
          (fun h => setWithExtrinsic h ocA.changes.states v
            (OverlayedChanges.extrinsic_index ocA))) k2).isSome =
        (lookupM (updMap ocB.changes.top k []
          (fun h => setWithExtrinsic h ocB.changes.states v
            (OverlayedChanges.extrinsic_index ocB))) k2).isSome
      by_cases hk : k2 = k
      · subst hk
        rw [lookupM_updMap_self, lookupM_updMap_self]
        rfl
      · rw [lookupM_updMap_other _ _ _ _ _ hk, lookupM_updMap_other _ _ _ _ _ hk]
        exact hiso k2
    · show ∀ p ∈ updMap ocA.changes.top k []
        (fun h => setWithExtrinsic h ocA.changes.states v
          (OverlayedChanges.extrinsic_index ocA)), histIdxOk (States.len sA) p.2
      intro p hp e he
      rcases updMap_mem ocA.changes.top k [] _ p hp with hmem | ⟨_hp1, hp2⟩
      · exact hbd p hmem e he
      · rw [hp2] at he
        rcases setWithExtrinsic_mem _ _ _ _ e he with hidx | hmem2
        · rw [hidx, hsA]
          omega
        · exact hgetDbdA k e hmem2
    · intro k2
      show (History.get ((lookupM (updMap ocA.changes.top k []
          (fun h => setWithExtrinsic h ocA.changes.states v
            (OverlayedChanges.extrinsic_index ocA))) k2).getD []) sA).map
          (fun ov => ov.value) =
        (History.get ((lookupM (updMap ocB.changes.top k []
          (fun h => setWithExtrinsic h ocB.changes.states v
            (OverlayedChanges.extrinsic_index ocB))) k2).getD []) sB).map
          (fun ov => ov.value)
      by_cases hk : k2 = k
      · subst hk
        rw [lookupM_updMap_self, lookupM_updMap_self]
        simp only [Option.getD_some]
        rw [hsA, hsB]
        rw [setWithExtrinsic_get_value _ sA v _ hopenA,
            setWithExtrinsic_get_value _ sB v _ hopenB]
      · rw [lookupM_updMap_other _ _ _ _ _ hk, lookupM_updMap_other _ _ _ _ _ hk]
        exact hval k2
  | setC sk k v =>
    exact C1CommitRel_congr_fields sA sB cfg ocA ocB _ _ rfl rfl rfl rfl rfl rfl
      ⟨hsA, hsB, hcA, hcB, hnd, hiso, hbd, hval⟩
  | clearCS sk =>
    exact C1CommitRel_congr_fields sA sB cfg ocA ocB _ _ rfl rfl rfl rfl rfl rfl
      ⟨hsA, hsB, hcA, hcB, hnd, hiso, hbd, hval⟩
  | clearCP sk p =>
    have hA : (OverlayedChanges.clearChildPrefix ocA sk p).changes.states =
          ocA.changes.states ∧
        (OverlayedChanges.clearChildPrefix ocA sk p).changes.top = ocA.changes.top ∧
        (OverlayedChanges.clearChildPrefix ocA sk p).changes_trie_config =
          ocA.changes_trie_config := by
      cases hm : lookupM ocA.changes.children sk with
      | none => simp [OverlayedChanges.clearChildPrefix, hm]
      | some m => simp [OverlayedChanges.clearChildPrefix, hm]
    have hB : (OverlayedChanges.clearChildPrefix ocB sk p).changes.states =
          ocB.changes.states ∧
        (OverlayedChanges.clearChildPrefix ocB sk p).changes.top = ocB.changes.top ∧
        (OverlayedChanges.clearChildPrefix ocB sk p).changes_trie_config =
          ocB.changes_trie_config := by
      cases hm : lookupM ocB.changes.children sk with
      | none => simp [OverlayedChanges.clearChildPrefix, hm]
      | some m => simp [OverlayedChanges.clearChildPrefix, hm]
    exact C1CommitRel_congr_fields sA sB cfg ocA ocB _ _ hA.1 hA.2.1 hA.2.2
      hB.1 hB.2.1 hB.2.2 ⟨hsA, hsB, hcA, hcB, hnd, hiso, hbd, hval⟩
  | clearP p =>
    refine ⟨hsA, hsB, hcA, hcB, ?_, ?_, ?_, ?_⟩
    · show ((mapVals (fun k2 h => if p.isPrefixOf k2 then setWithExtrinsic h
        ocA.changes.states none (OverlayedChanges.extrinsic_index ocA) else h)
        ocA.changes.top).map Prod.fst).Nodup
      rw [keys_mapVals]
      exact hnd
    · intro k2
      show (lookupM (mapVals (fun k3 h => if p.isPrefixOf k3 then setWithExtrinsic h
          ocA.changes.states none (OverlayedChanges.extrinsic_index ocA) else h)
          ocA.changes.top) k2).isSome =
        (lookupM (mapVals (fun k3 h => if p.isPrefixOf k3 then setWithExtrinsic h
          ocB.changes.states none (OverlayedChanges.extrinsic_index ocB) else h)
          ocB.changes.top) k2).isSome
      rw [lookupM_mapVals, lookupM_mapVals]
      cases hlA : lookupM ocA.changes.top k2 with
      | none =>
        cases hlB : lookupM ocB.changes.top k2 with
        | none => rfl
        | some hb =>
          have hBs := hiso k2
          rw [hlA, hlB] at hBs
          simp at hBs
      | some ha =>
        cases hlB : lookupM ocB.changes.top k2 with
        | none =>
          have hBs := hiso k2
          rw [hlA, hlB] at hBs
          simp at hBs
        | some hb => rfl
    · show ∀ q ∈ mapVals (fun k2 h => if p.isPrefixOf k2 then setWithExtrinsic h
        ocA.changes.states none (OverlayedChanges.extrinsic_index ocA) else h)
        ocA.changes.top, histIdxOk (States.len sA) q.2
      intro q hq e he
      obtain ⟨q0, hq0, hfq⟩ := List.mem_map.mp hq
      rw [← hfq] at he
      simp only at he
      by_cases hpk : p.isPrefixOf q0.1
      · rw [if_pos hpk] at he
        rcases setWithExtrinsic_mem _ _ _ _ e he with hidx | hmem2
        · rw [hidx, hsA]
          omega
        · exact hbd q0 hq0 e hmem2
      · rw [if_neg hpk] at he
        exact hbd q0 hq0 e he
    · intro k2
      show (History.get ((lookupM (mapVals (fun k3 h => if p.isPrefixOf k3 then
          setWithExtrinsic h ocA.changes.states none
            (OverlayedChanges.extrinsic_index ocA) else h) ocA.changes.top) k2).getD [])
          sA).map (fun ov => ov.value) =
        (History.get ((lookupM (mapVals (fun k3 h => if p.isPrefixOf k3 then
          setWithExtrinsic h ocB.changes.states none
            (OverlayedChanges.extrinsic_index ocB) else h) ocB.changes.top) k2).getD [])
          sB).map (fun ov => ov.value)
      rw [lookupM_mapVals, lookupM_mapVals]
      cases hlA : lookupM ocA.changes.top k2 with
      | none =>
        cases hlB : lookupM ocB.changes.top k2 with
        | none => rfl
        | some hb =>
          have hBs := hiso k2
          rw [hlA, hlB] at hBs
          simp at hBs
      | some ha =>
        cases hlB : lookupM ocB.changes.top k2 with
        | none =>
          have hBs := hiso k2
          rw [hlA, hlB] at hBs
          simp at hBs
        | some hb =>
          have hredA : (Option.map (fun h => if p.isPrefixOf k2 then setWithExtrinsic h
              ocA.changes.states none (OverlayedChanges.extrinsic_index ocA) else h)
              (some ha)).getD [] = if p.isPrefixOf k2 then setWithExtrinsic ha
              ocA.changes.states none (OverlayedChanges.extrinsic_index ocA) else ha := rfl
          have hredB : (Option.map (fun h => if p.isPrefixOf k2 then setWithExtrinsic h
              ocB.changes.states none (OverlayedChanges.extrinsic_index ocB) else h)
              (some hb)).getD [] = if p.isPrefixOf k2 then setWithExtrinsic hb
              ocB.changes.states none (OverlayedChanges.extrinsic_index ocB) else hb := rfl
          rw [hredA, hredB]
          by_cases hpk : p.isPrefixOf k2
          · rw [if_pos hpk, if_pos hpk]
            rw [hsA, hsB]
            rw [setWithExtrinsic_get_value _ sA none _ hopenA,
                setWithExtrinsic_get_value _ sB none _ hopenB]
          · rw [if_neg hpk, if_neg hpk]
            have hv := hval k2
            unfold valueAt at hv
            rw [hlA, hlB] at hv
            simp only [Option.getD_some] at hv
            exact hv

theorem C1CommitRel_applyWrites (sA sB : States) (cfg : Option ChangesTrieConfig)
    (conf : GcConf)
    (hlenA : 0 < States.len sA)
    (hopenA : ¬ States.marker sA (States.len sA - 1) = TransactionState.Dropped)
    (hopenB : ¬ States.marker sB (States.len sB - 1) = TransactionState.Dropped) :
    ∀ (W : List WriteOp) (ocA ocB : OverlayedChanges), C1CommitRel sA sB cfg ocA ocB →
      C1CommitRel sA sB cfg (applyWrites conf W ocA) (applyWrites conf W ocB) := by
  intro W
  induction W with
  | nil => intro ocA ocB h; exact h
  | cons w rest ih =>
    intro ocA ocB h
    exact ih (applyWrite conf ocA w) (applyWrite conf ocB w)
      (C1CommitRel_write sA sB cfg conf ocA ocB w hlenA hopenA hopenB h)

theorem C1_commit_final (conf : GcConf) (oc : OverlayedChanges) (W : List WriteOp)
    (k : Bytes) (hwf : Wf oc)
    (h1 : oc.operation_from_last_gc ≤ conf.trigger_transaction_gc) :
    OverlayedChanges.storage
      (OverlayedChanges.commit_transaction conf
        (applyWrites conf W (OverlayedChanges.start_transaction conf oc))) k =
      OverlayedChanges.storage (applyWrites conf W oc) k := by
  obtain ⟨hclen, hlast, hndt, hbd, _, _⟩ := hwf
  have hn : oc.changes.states.commit < oc.changes.states.history.length := hclen
  have hlenA : States.len (States.start_transaction oc.changes.states) =
      oc.changes.states.history.length + 1 := by
    show (oc.changes.states.history ++ [TransactionState.TxPending]).length = _
    simp
  have hmAn : States.marker (States.start_transaction oc.changes.states)
      oc.changes.states.history.length = TransactionState.TxPending :=
    marker_append_self oc.changes.states.history _ _
  have hopenA : ¬ States.marker (States.start_transaction oc.changes.states)
      (States.len (States.start_transaction oc.changes.states) - 1) =
      TransactionState.Dropped := by
    rw [hlenA]
    show ¬ States.marker (States.start_transaction oc.changes.states)
      oc.changes.states.history.length = TransactionState.Dropped
    rw [hmAn]
    intro hcon
    cases hcon
  have hstart : OverlayedChanges.start_transaction conf oc =
      { oc with changes := OverlayedChangeSet.start_transaction oc.changes } :=
    maybeGcTransaction_noop conf _ h1
  have hbase : C1CommitRel (States.start_transaction oc.changes.states)
      oc.changes.states oc.changes_trie_config
      { oc with changes := OverlayedChangeSet.start_transaction oc.changes } oc := by
    refine ⟨rfl, rfl, rfl, rfl, hndt, fun k2 => rfl, ?_, ?_⟩
    · intro p hp e he
      have h3 : e.index < oc.changes.states.history.length := hbd p hp e he
      show e.index < States.len (States.start_transaction oc.changes.states)
      rw [hlenA]
      omega
    · intro k2
      have hbdk : ∀ e ∈ (lookupM oc.changes.top k2).getD [],
          e.index < oc.changes.states.history.length := by
        cases hl : lookupM oc.changes.top k2 with
        | none => intro e he; simp at he
        | some h0 =>
          intro e he
          simp only [Option.getD_some] at he
          exact hbd (k2, h0) (lookupM_mem _ _ _ hl) e he
      show (History.get ((lookupM oc.changes.top k2).getD [])
          (States.start_transaction oc.changes.states)).map (fun ov => ov.value) =
        (History.get ((lookupM oc.changes.top k2).getD []) oc.changes.states).map
          (fun ov => ov.value)
      congr 1
      apply get_congr
      intro e he
      show States.marker ⟨oc.changes.states.history ++ [TransactionState.TxPending],
          oc.changes.states.commit⟩ e.index = TransactionState.Dropped ↔
        States.marker oc.changes.states e.index = TransactionState.Dropped
      rw [marker_append_lt _ _ oc.changes.states e.index (hbdk e he)]
  have hrel := C1CommitRel_applyWrites (States.start_transaction oc.changes.states)
      oc.changes.states oc.changes_trie_config conf
      (by rw [hlenA]; omega) hopenA hlast W
      { oc with changes := OverlayedChangeSet.start_transaction oc.changes } oc hbase
  rw [← hstart] at hrel
  obtain ⟨hsWA, hsWB, _, _, hndW, _hisoW, hbdW, hvalW⟩ := hrel
  show OverlayedChanges.storage
    (maybeGcTransaction conf
      { applyWrites conf W (OverlayedChanges.start_transaction conf oc) with
        changes := OverlayedChangeSet.commit_transaction
          (applyWrites conf W (OverlayedChanges.start_transaction conf oc)).changes }) k =
    OverlayedChanges.storage (applyWrites conf W oc) k
  refine Eq.trans (storage_maybeGcTransaction conf
    { applyWrites conf W (OverlayedChanges.start_transaction conf oc) with
      changes := OverlayedChangeSet.commit_transaction
        (applyWrites conf W (OverlayedChanges.start_transaction conf oc)).changes }
    k hndW) ?_
  rw [storage_eq_valueAt]
  show valueAt (States.commit_transaction
      (applyWrites conf W (OverlayedChanges.start_transaction conf oc)).changes.states)
      (applyWrites conf W (OverlayedChanges.start_transaction conf oc)).changes.top k =
    OverlayedChanges.storage (applyWrites conf W oc) k
  rw [hsWA]
  show valueAt (States.commit_transaction ⟨oc.changes.states.history ++
      [TransactionState.TxPending], oc.changes.states.commit⟩)
      (applyWrites conf W (OverlayedChanges.start_transaction conf oc)).changes.top k =
    OverlayedChanges.storage (applyWrites conf W oc) k
  rw [commit_tx_append oc.changes.states (le_of_lt hn)]
  have hsplitC : oc.changes.states.history ++
      [TransactionState.Committed, TransactionState.Pending] =
      (oc.changes.states.history ++ [TransactionState.Committed]) ++
        [TransactionState.Pending] := by
    rw [List.append_assoc]
    rfl
  have hmC : ∀ i, i < oc.changes.states.history.length →
      States.marker ⟨oc.changes.states.history ++
        [TransactionState.Committed, TransactionState.Pending],
        oc.changes.states.commit⟩ i = States.marker oc.changes.states i := by
    intro i hi
    show (oc.changes.states.history ++
      [TransactionState.Committed, TransactionState.Pending]).getD i
        TransactionState.Dropped =
      oc.changes.states.history.getD i TransactionState.Dropped
    rw [hsplitC]
    rw [getD_append_lt _ _ _ _
      (by simp only [List.length_append, List.length_cons, List.length_nil]; omega)]
    exact getD_append_lt _ _ _ _ hi
  have hmCn : States.marker ⟨oc.changes.states.history ++
      [TransactionState.Committed, TransactionState.Pending],
      oc.changes.states.commit⟩ oc.changes.states.history.length =
      TransactionState.Committed := by
    show (oc.changes.states.history ++
      [TransactionState.Committed, TransactionState.Pending]).getD
        oc.changes.states.history.length TransactionState.Dropped =
      TransactionState.Committed
    rw [hsplitC]
    rw [getD_append_lt _ _ _ _
      (by simp only [List.length_append, List.length_cons, List.length_nil]; omega)]
    exact getD_append_self _ _ _
  have hbdWk : ∀ e ∈ (lookupM (applyWrites conf W
      (OverlayedChanges.start_transaction conf oc)).changes.top k).getD [],
      e.index < oc.changes.states.history.length + 1 := by
    cases hl : lookupM (applyWrites conf W
        (OverlayedChanges.start_transaction conf oc)).changes.top k with
    | none => intro e he; simp at he
    | some h0 =>
      intro e he
      simp only [Option.getD_some] at he
      have h4 := hbdW (k, h0) (lookupM_mem _ _ _ hl) e he
      rw [hlenA] at h4
      exact h4
  have hcongrC : History.get ((lookupM (applyWrites conf W
      (OverlayedChanges.start_transaction conf oc)).changes.top k).getD [])
      ⟨oc.changes.states.history ++
        [TransactionState.Committed, TransactionState.Pending],
        oc.changes.states.commit⟩ =
    History.get ((lookupM (applyWrites conf W
      (OverlayedChanges.start_transaction conf oc)).changes.top k).getD [])
      (States.start_transaction oc.changes.states) := by
    apply get_congr
    intro e he
    have hi := hbdWk e he
    by_cases hlt : e.index < oc.changes.states.history.length
    · show States.marker ⟨oc.changes.states.history ++
          [TransactionState.Committed, TransactionState.Pending],
          oc.changes.states.commit⟩ e.index = TransactionState.Dropped ↔
        States.marker ⟨oc.changes.states.history ++ [TransactionState.TxPending],
          oc.changes.states.commit⟩ e.index = TransactionState.Dropped
      rw [hmC e.index hlt, marker_append_lt _ _ oc.changes.states e.index hlt]
    · have hieq : e.index = oc.changes.states.history.length := by omega
      rw [hieq, hmCn, hmAn]
      constructor
      · intro hcon; cases hcon
      · intro hcon; cases hcon
  show (History.get ((lookupM (applyWrites conf W
      (OverlayedChanges.start_transaction conf oc)).changes.top k).getD [])
      ⟨oc.changes.states.history ++
        [TransactionState.Committed, TransactionState.Pending],
        oc.changes.states.commit⟩).map (fun ov => ov.value) =
    OverlayedChanges.storage (applyWrites conf W oc) k
  rw [hcongrC]
  rw [storage_eq_valueAt, hsWB]
  exact hvalW k

/-- Claim C1 counterexample to the unconditional commit direction: from the
reachable well-formed overlay `cexC1Base` (whose operation counter has crossed
the tight transaction-gc threshold), the commit-wrapped prefix-clear reads the
dead key `[1]` back as unknown, while the direct prefix-clear reads it as
known-deleted — the boundary garbage collection removed the dead key before
the clear could tombstone it. -/
theorem c1_counterexample :
    Wf cexC1Base ∧
    OverlayedChanges.storage cexC1A [1] = none ∧
    OverlayedChanges.storage cexC1B [1] = some none := by
  refine ⟨?_, ?_, ?_⟩ <;> decide

/-- Claim C1 (corrected): for every well-formed overlay, key and write sequence,
`start_transaction(); W; discard_transaction()` leaves `storage k` unchanged
unconditionally; `start_transaction(); W; commit_transaction()` agrees with
performing `W` directly provided the operation counter does not exceed the
transaction-gc threshold at the `start_transaction` call (without that proviso
the start-boundary garbage collection can turn a key with a fully dead history
from known-deleted into unknown, see the counterexample; the commit-boundary
gc, being non-eager, never changes a read). -/
theorem c1_transaction_nesting (conf : GcConf) (oc : OverlayedChanges) (W : List WriteOp)
    (k : Bytes) (hwf : Wf oc) :
    (OverlayedChanges.storage
      (OverlayedChanges.discard_transaction conf
        (applyWrites conf W (OverlayedChanges.start_transaction conf oc))) k =
      OverlayedChanges.storage oc k) ∧
    (oc.operation_from_last_gc ≤ conf.trigger_transaction_gc →
      OverlayedChanges.storage
        (OverlayedChanges.commit_transaction conf
          (applyWrites conf W (OverlayedChanges.start_transaction conf oc))) k =
        OverlayedChanges.storage (applyWrites conf W oc) k) :=
  ⟨C1_discard_final conf oc W k hwf,
   fun h1 => C1_commit_final conf oc W k hwf h1⟩

/-- Witness for C1: both directions instantiated on the empty overlay with a
single write under a generous gc configuration. -/
theorem c1_transaction_nesting_witness :
    Wf OverlayedChanges.empty ∧
    (OverlayedChanges.storage
      (OverlayedChanges.discard_transaction confBig
        (applyWrites confBig [WriteOp.setS [1] (some [2])]
          (OverlayedChanges.start_transaction confBig OverlayedChanges.empty))) [1] =
      OverlayedChanges.storage OverlayedChanges.empty [1]) ∧
    (OverlayedChanges.storage
      (OverlayedChanges.commit_transaction confBig
        (applyWrites confBig [WriteOp.setS [1] (some [2])]
          (OverlayedChanges.start_transaction confBig OverlayedChanges.empty))) [1] =
      OverlayedChanges.storage
        (applyWrites confBig [WriteOp.setS [1] (some [2])] OverlayedChanges.empty) [1]) :=
  ⟨by decide,
   (c1_transaction_nesting confBig OverlayedChanges.empty [WriteOp.setS [1] (some [2])]
     [1] (by decide)).1,
   (c1_transaction_nesting confBig OverlayedChanges.empty [WriteOp.setS [1] (some [2])]
     [1] (by decide)).2 (by decide)⟩
